import Mathlib

/-!
Verification of the Notion-export utilities of this repository
(`html_bundle_extractor.py` and `apply_theme.py`).

Python string and regex operations are modelled on `List Char` with explicit
fuel, so that every definition is executable and kernel-reducible.  Paths are
modelled as lists of components (`List String`), relative to the directory the
Python code operates on; the filesystem is modelled as the list of such paths
(respectively as a tree of entries where nested archives matter).
-/

namespace NotionTools

/-! ### Python string primitives -/

/-- Does list `s` start with the literal pattern `p`?
Models a literal piece of a Python regex / `str.startswith`. -/
def startsL : List Char → List Char → Bool
  | [], _ => true
  | _ :: _, [] => false
  | p :: ps, c :: cs => p == c && startsL ps cs

/-- Fuelled scanner for Python `str.replace`: replace every non-overlapping
leftmost occurrence of `pat` by `rep`. -/
def replAux (pat rep : List Char) : Nat → List Char → List Char
  | _, [] => []
  | 0, s => s
  | f+1, c :: t =>
    if startsL pat (c :: t) then rep ++ replAux pat rep f (List.drop pat.length (c :: t))
    else c :: replAux pat rep f t

/-- Fuelled scanner for Python `str.split(pat)`: split at every
non-overlapping leftmost occurrence of `pat` (empty pieces kept). -/
def splitAux (pat : List Char) : Nat → List Char → List (List Char)
  | _, [] => [[]]
  | 0, s => [s]
  | f+1, c :: t =>
    if startsL pat (c :: t) then [] :: splitAux pat f (List.drop pat.length (c :: t))
    else
      match splitAux pat f t with
      | [] => [[c]]
      | q :: qs => (c :: q) :: qs

/-- Join pieces with a separator (Python `sep.join(pieces)`). -/
def joinWith (sep : List Char) : List (List Char) → List Char
  | [] => []
  | [q] => q
  | q :: qs => q ++ sep ++ joinWith sep qs

/-- Python `s.replace(pat, rep)` (for nonempty `pat`; an empty pattern is
never used by the modelled code and is treated as the identity). -/
def pyReplaceL (s pat rep : List Char) : List Char :=
  if pat.isEmpty then s else replAux pat rep s.length s

/-- Python `s.split(pat)` for nonempty `pat`. -/
def splitOnL (s pat : List Char) : List (List Char) :=
  if pat.isEmpty then [s] else splitAux pat s.length s

/-- String wrapper for `pyReplaceL`. -/
def pyReplaceS (s pat rep : String) : String :=
  ⟨pyReplaceL s.data pat.data rep.data⟩

/-- Specification-side notion of "the text with every occurrence of `pat`
replaced by `rep`": split the text at the occurrences of `pat` and glue the
pieces back with `rep`. -/
def replacedEveryS (s pat rep : String) : String :=
  ⟨joinWith rep.data (splitOnL s.data pat.data)⟩


/-! ### apply_theme.py: the built-in page template and `process_html_file`
(claim C5) -/

/-- The generic template returned by
`WebsiteThemeApplicator.get_template_content` (apply_theme.py lines 43-202);
`self.template_path` is always `None`, so this literal is the template used.
Brace characters are written `\x7b`/`\x7d`. -/
def generic_template : String :=
  "<!DOCTYPE html>\n<html lang=\"en\">\n<head>\n  <meta charset=\"UTF-8\">\n  <meta name=\"viewport\" content=\"width=device-width, initial-scale=1.0\">\n  <title>\x7b\x7bTITLE\x7d\x7d - Micah Muir</title>\n  <link href=\"https://fonts.googleapis.com/css2?family=Inter:wght@400;500;600;700&display=swap\" rel=\"stylesheet\">\n  <link rel=\"stylesheet\" href=\"../../assets/css/style.css\">\n  <style>\n    /* Project-specific image grid styling */\n    .image-grid \x7b\n      display: grid;\n      gap: 2rem;\n      margin: 2rem 0;\n    \x7d\n    \n    .image-grid.two-column \x7b\n      grid-template-columns: repeat(auto-fit, minmax(300px, 1fr));\n    \x7d\n    \n    .image-grid.three-column \x7b\n      grid-template-columns: repeat(auto-fit, minmax(250px, 1fr));\n    \x7d\n    \n    .image-grid.four-column \x7b\n      grid-template-columns: repeat(auto-fit, minmax(200px, 1fr));\n    \x7d\n    \n    /* Responsive grid adjustments */\n    @media (max-width: 768px) \x7b\n      .image-grid.three-column,\n      .image-grid.four-column \x7b\n        grid-template-columns: repeat(auto-fit, minmax(250px, 1fr));\n      \x7d\n    \x7d\n    \n    @media (max-width: 480px) \x7b\n      .image-grid \x7b\n        grid-template-columns: 1fr;\n        gap: 1rem;\n      \x7d\n    \x7d\n    \n    .image-with-caption \x7b\n      text-align: center;\n    \x7d\n    \n    .image-with-caption img \x7b\n      width: 100%;\n      height: auto;\n      border-radius: var(--border-radius-small);\n      box-shadow: var(--shadow-medium);\n      transition: transform var(--transition-medium);\n    \x7d\n    \n    .image-with-caption img:hover \x7b\n      transform: scale(1.02);\n      box-shadow: var(--shadow-heavy);\n    \x7d\n    \n    /* Video embed styling for gallery compatibility */\n    .image-with-caption div[style*=\"padding-bottom: 56.25%\"]:hover \x7b\n      transform: scale(1.02);\n      box-shadow: var(--shadow-heavy);\n    \x7d\n    \n    .caption \x7b\n      font-size: 0.9rem;\n      color: var(--text-medium);\n      font-style: italic;\n      margin-top: 1rem;\n      line-height: 1.4;\n    \x7d\n    \n    /* Project content styling */\n    .project-content h2 \x7b\n      color: var(--secondary-color);\n      font-size: 1.5rem;\n      margin: 2rem 0 1rem 0;\n      padding-bottom: 0.5rem;\n      border-bottom: 2px solid var(--secondary-color);\n    \x7d\n    \n\n    \n    .project-content ul \x7b\n      list-style: none;\n      padding-left: 0;\n      margin: 1rem 0;\n    \x7d\n    \n    .project-content li \x7b\n      position: relative;\n      padding-left: 1.5rem;\n      margin-bottom: 0.5rem;\n    \x7d\n    \n    .project-content li::before \x7b\n      content: \x27\u25b8\x27;\n      color: var(--secondary-color);\n      font-weight: bold;\n      position: absolute;\n      left: 0;\n    \x7d\n  </style>\n</head>\n<body class=\"project-detail\">\n  <!-- Navigation -->\n  <nav class=\"navbar\">\n    <div class=\"nav-container\">\n      <ul class=\"nav-links\">\n        <li><a href=\"../../index.html\">About</a></li>\n        <li><a href=\"../../resume.html\">Resume</a></li>\n        <li><a href=\"../../projects.html\">Projects</a></li>\n      </ul>\n    </div>\n  </nav>\n\n  <!-- Main Content -->\n  <main class=\"main-content\">\n    <!-- Header -->\n    <section class=\"hero\" style=\"padding: 4rem 0 2rem;\">\n      <div class=\"container\">\n        <h1>\x7b\x7bTITLE\x7d\x7d</h1>\n      </div>\n    </section>\n\n    <!-- Project Content -->\n    <section class=\"section\">\n      <div class=\"container\">\n        <div class=\"paper-panel\">\n          <div class=\"project-content\">\n            \x7b\x7bCONTENT\x7d\x7d\n          </div>\n        </div>\n        \n        <!-- Back to Projects -->\n        <div class=\"text-center mt-3\">\n          <a href=\"../../projects.html\" class=\"btn btn-secondary\">\u2190 Back to Projects</a>\n        </div>\n      </div>\n    </section>\n  </main>\n\n  <!-- Main JavaScript -->\n  <script src=\"../../assets/js/main.js\"></script>\n  \n  <!-- JavaScript for active navigation -->\n  <script>\n    document.addEventListener(\x27DOMContentLoaded\x27, function() \x7b\n      const navLinks = document.querySelectorAll(\x27.nav-links a\x27);\n      navLinks.forEach(link => \x7b\n        if (link.getAttribute(\x27href\x27) === \x27../../projects.html\x27) \x7b\n          link.classList.add(\x27active\x27);\n        \x7d\n      \x7d);\n    \x7d);\n  </script>\n</body>\n</html>"

/-- The `{{TITLE}}` placeholder. -/
def titlePlaceholder : String := "\x7b\x7bTITLE\x7d\x7d"

/-- The `{{CONTENT}}` placeholder. -/
def contentPlaceholder : String := "\x7b\x7bCONTENT\x7d\x7d"

/-- The result of `extract_content_from_html`: a title and a content string.
The extraction itself is a long best-effort regex pipeline whose output is
unconstrained by claim C5, so it enters the model as this abstract record. -/
structure ExtractResult where
  title : String
  content : String

/-- apply_theme.py lines 840-841: instantiate the template
(`template.replace('{{TITLE}}', title).replace('{{CONTENT}}', content)`). -/
def apply_template (template title content : String) : String :=
  pyReplaceS (pyReplaceS template titlePlaceholder title) contentPlaceholder content

/-- `WebsiteThemeApplicator.process_html_file` (apply_theme.py lines 816-852),
success path: the themed content that is written back to the file, paired with
the returned value (`True`).  Reading the file, `copy_and_fix_images` and
`extract_content_from_html` produce the `ExtractResult`; the write-back
content depends on it only through `apply_template`. -/
def process_html_file (template : String) (ex : ExtractResult) : String × Bool :=
  (apply_template template ex.title ex.content, true)


/-! ### html_bundle_extractor.py: `clean_filename` (claim C3) -/

/-- Python regex class `[a-f0-9]` (lowercase hex digit). -/
def hexDigitLower (c : Char) : Bool :=
  ('a' ≤ c && c ≤ 'f') || ('0' ≤ c && c ≤ '9')

/-- Python regex class `\s`, ASCII range (the inputs handled by the tool are
filenames; the model covers the ASCII whitespace characters). -/
def pyWs (c : Char) : Bool :=
  c == ' ' || c == '\t' || c == '\n' || c == '\r' || c == '\x0b' || c == '\x0c'

/-- Match `[a-f0-9]{n}` at the front, returning the rest of the input. -/
def chopHex (n : Nat) (s : List Char) : Option (List Char) :=
  if (s.take n).length == n && (s.take n).all hexDigitLower then some (s.drop n)
  else none

/-- Match one literal character at the front. -/
def chopChar (x : Char) : List Char → Option (List Char)
  | [] => none
  | c :: t => if c == x then some t else none

/-- Match the hyphenated UUID regex
`[a-f0-9]{8}-[a-f0-9]{4}-[a-f0-9]{4}-[a-f0-9]{4}-[a-f0-9]{12}` at the front. -/
def chopHyphenUuid (s : List Char) : Option (List Char) :=
  (chopHex 8 s).bind fun s =>
  (chopChar '-' s).bind fun s =>
  (chopHex 4 s).bind fun s =>
  (chopChar '-' s).bind fun s =>
  (chopHex 4 s).bind fun s =>
  (chopChar '-' s).bind fun s =>
  (chopHex 4 s).bind fun s =>
  (chopChar '-' s).bind fun s =>
  chopHex 12 s

/-- Global `re.sub(pattern, '', s)` for a fixed-shape pattern `chop`:
delete every non-overlapping leftmost match. -/
def subChopAux (chop : List Char → Option (List Char)) : Nat → List Char → List Char
  | _, [] => []
  | 0, s => s
  | f+1, c :: t =>
    match chop (c :: t) with
    | some rest => subChopAux chop f rest
    | none => c :: subChopAux chop f t

/-- `re.sub(r'[a-f0-9]{8}-[a-f0-9]{4}-[a-f0-9]{4}-[a-f0-9]{4}-[a-f0-9]{12}', '', s)`. -/
def subHyphenUuid (s : List Char) : List Char := subChopAux chopHyphenUuid s.length s

/-- `re.sub(r'[a-f0-9]{32}', '', s)`. -/
def subHex32 (s : List Char) : List Char := subChopAux (chopHex 32) s.length s

/-- `re.sub(r'\s+[a-f0-9]{32}$', '', s)`: if the string ends in 32 hex digits
preceded by at least one whitespace character, delete that whitespace run and
the digits (at most one match, since the pattern is end-anchored). -/
def subTrailWsHex32 (s : List Char) : List Char :=
  let r := s.reverse
  if (r.take 32).length == 32 && (r.take 32).all hexDigitLower then
    if ((r.drop 32).takeWhile pyWs).isEmpty then s
    else ((r.drop 32).dropWhile pyWs).reverse
  else s

/-- `re.sub(r'[a-f0-9]{32}$', '', s)`. -/
def subTrailHex32 (s : List Char) : List Char :=
  let r := s.reverse
  if (r.take 32).length == 32 && (r.take 32).all hexDigitLower then (r.drop 32).reverse
  else s

/-- `re.sub(r'^ExportBlock-[^/]*/', '', s)`: if the string starts with
`ExportBlock-`, delete everything up to and including the first following
slash (no match when there is no slash). -/
def subExportBlock (s : List Char) : List Char :=
  if startsL ("ExportBlock-".data) s then
    let rest := s.drop 12
    let a := rest.takeWhile (fun c => !(c == '/'))
    if a.length < rest.length then rest.drop (a.length + 1) else s
  else s

/-- The character class `[<>:"|?*]` removed by `clean_filename`. -/
def specialChar (c : Char) : Bool :=
  c == '<' || c == '>' || c == ':' || c == '"' || c == '|' || c == '?' || c == '*'

/-- `re.sub(r'\s+', ' ', s)`: collapse each maximal whitespace run to a
single space.  The flag records whether the previous character was
whitespace. -/
def wsNormAux : List Char → Bool → List Char
  | [], _ => []
  | c :: t, prevWs =>
    if pyWs c then (if prevWs then wsNormAux t true else ' ' :: wsNormAux t true)
    else c :: wsNormAux t false

/-- `re.sub(r'\s+', ' ', s)`. -/
def wsNorm (s : List Char) : List Char := wsNormAux s false

/-- `pathlib.PurePath` stem/suffix of a single name component: the suffix starts
at the last dot, provided that dot is neither the first nor the last
character; otherwise the suffix is empty and the stem is the whole name. -/
def stemSuffix (name : List Char) : List Char × List Char :=
  let rev := name.reverse
  let r := (rev.takeWhile (fun c => !(c == '.'))).length
  if r < name.length && 0 < r && r + 1 < name.length then
    ((rev.drop (r+1)).reverse, (rev.take (r+1)).reverse)
  else (name, [])

/-- Python `str.strip(chars)`: drop members of `cs` from both ends. -/
def stripChars (cs : List Char) (s : List Char) : List Char :=
  ((s.dropWhile (fun c => cs.contains c)).reverse.dropWhile (fun c => cs.contains c)).reverse

/-- The ASCII uppercase/lowercase table behind Python `str.lower()`
(the tool only handles ASCII filenames). -/
def upperLower : List (Char × Char) :=
  [('A','a'), ('B','b'), ('C','c'), ('D','d'), ('E','e'), ('F','f'), ('G','g'),
   ('H','h'), ('I','i'), ('J','j'), ('K','k'), ('L','l'), ('M','m'), ('N','n'),
   ('O','o'), ('P','p'), ('Q','q'), ('R','r'), ('S','s'), ('T','t'), ('U','u'),
   ('V','v'), ('W','w'), ('X','x'), ('Y','y'), ('Z','z')]

/-- Python `str.lower()` on one ASCII character. -/
def pyLowerChar (c : Char) : Char :=
  match upperLower.find? (fun p => p.1 == c) with
  | some p => p.2
  | none => c

/-- Python `str.lower()`. -/
def pyLowerL (s : List Char) : List Char := s.map pyLowerChar

/-- `clean_filename`, per-component cleaning (html_bundle_extractor.py lines
487-519): strip trailing UUIDs, delete hyphenated UUIDs, delete `[<>:"|?*]`,
collapse whitespace, truncate the stem to 50 characters keeping the
(lowercased) extension, then `strip(' .-')`. -/
def cleanPart (part : List Char) : List Char :=
  let p5 := wsNorm ((subHyphenUuid (subTrailHex32 (subTrailWsHex32 part))).filter
    (fun c => !specialChar c))
  stripChars [' ', '.', '-'] ((stemSuffix p5).1.take 50 ++ pyLowerL (stemSuffix p5).2)

/-- `clean_filename`, global phase (lines 470-481): strip a trailing
` + UUID`, delete hyphenated and 32-hex UUIDs, drop an `ExportBlock-.../`
start, and collapse `/Private & Shared/` and `/Shared/` to `/`. -/
def cleanGlobal (s : List Char) : List Char :=
  pyReplaceL
    (pyReplaceL (subExportBlock (subHex32 (subHyphenUuid (subTrailWsHex32 s))))
      ("/Private & Shared/".data) ("/".data))
    ("/Shared/".data) ("/".data)

/-- The cleaned path components of `clean_filename`: split on `/`, skip empty
parts, clean each component, keep the nonempty results (lines 484-519). -/
def cleanParts (s : List Char) : List (List Char) :=
  (((splitOnL (cleanGlobal s) ("/".data)).filter (fun p => !p.isEmpty)).map cleanPart).filter
    (fun p => !p.isEmpty)

/-- `HTMLBundleExtractor.clean_filename`, character-list level: join the
cleaned components with `/`, strip slashes from the ends, and default to
`untitled` when nothing remains (lines 521-531). -/
def cleanFilenameL (s : List Char) : List Char :=
  if (stripChars ['/'] (joinWith ['/'] (cleanParts s))).isEmpty then "untitled".data
  else stripChars ['/'] (joinWith ['/'] (cleanParts s))

/-- `HTMLBundleExtractor.clean_filename` (html_bundle_extractor.py lines
466-531). -/
def clean_filename (s : String) : String :=
  ⟨cleanFilenameL s.data⟩

/-- Does the string contain a run of 32 consecutive lowercase hex digits
(i.e. a 32-character UUID substring)? -/
def hasHex32 : List Char → Bool
  | [] => false
  | c :: t => (chopHex 32 (c :: t)).isSome || hasHex32 t

/-- String version of `hasHex32`. -/
def containsHex32 (s : String) : Bool := hasHex32 s.data

/-- The `pathlib` stem of a name, as a string. -/
def nameStem (s : String) : String := ⟨(stemSuffix s.data).1⟩


/-! ### apply_theme.py: `find_html_files` (claim C9) -/

/-- Does the string end with `suf`?  (`fnmatch` of the glob `*suf` against a
file name.) -/
def strEndsWith (suf s : List Char) : Bool := startsL suf.reverse s.reverse

/-- The final name component of a path (paths are lists of components
relative to the scanned directory). -/
def pathName (p : List String) : String := p.getLastD ""

/-- Python `str.lower()` on a string. -/
def pyLowerS (s : String) : String := ⟨pyLowerL s.data⟩

/-- The ordering `sorted` uses on `pathlib` paths: lexicographic comparison
of the component tuples. -/
def pathLeB : List String → List String → Bool
  | [], _ => true
  | _ :: _, [] => false
  | a :: as, b :: bs => if a = b then pathLeB as bs else decide (a < b)

/-- `WebsiteThemeApplicator.find_html_files` (apply_theme.py lines 930-942):
collect the recursive `*.html` and `*.htm` matches, drop `index.html` /
`index.htm` (case-insensitively), and sort.  `tree` is the recursive listing
of the directory. -/
def find_html_files (tree : List (List String)) : List (List String) :=
  ((tree.filter (fun p => strEndsWith ".html".data (pathName p).data) ++
      tree.filter (fun p => strEndsWith ".htm".data (pathName p).data)).filter
    (fun p => !(pyLowerS (pathName p) == "index.html" ||
                pyLowerS (pathName p) == "index.htm"))).mergeSort pathLeB


/-! ### apply_theme.py: `create_subpage_mapping` (claim C10) -/

/-- Python regex class `\w` (ASCII range). -/
def pyWordChar (c : Char) : Bool :=
  ('a' ≤ c && c ≤ 'z') || ('A' ≤ c && c ≤ 'Z') || ('0' ≤ c && c ≤ '9') || c == '_'

/-- Python `str.strip()` (whitespace from both ends). -/
def stripWs (s : List Char) : List Char :=
  ((s.dropWhile pyWs).reverse.dropWhile pyWs).reverse

/-- The name-cleaning part of `create_subpage_mapping` (apply_theme.py lines
955-959): drop a trailing ` UUID`, keep only word characters, whitespace and
hyphens, collapse whitespace, and strip. -/
def subpageCleanCore (stem : List Char) : List Char :=
  stripWs (wsNorm ((subTrailWsHex32 stem).filter
    (fun c => pyWordChar c || pyWs c || c == '-')))

/-- Line 961-962: default to `subpage` when the cleaned name is empty. -/
def subpageBaseName (stem : List Char) : List Char :=
  if (subpageCleanCore stem).isEmpty then "subpage".data else subpageCleanCore stem

/-- One decimal digit (as printed by a Python f-string). -/
def decDigit (n : Nat) : Char :=
  match n with
  | 0 => '0' | 1 => '1' | 2 => '2' | 3 => '3' | 4 => '4'
  | 5 => '5' | 6 => '6' | 7 => '7' | 8 => '8' | _ => '9'

/-- The numeric value of a decimal digit character. -/
def decVal (c : Char) : Nat := c.toNat - 48

/-- Read a digit list back as a number (left inverse of printing). -/
def parseDec (l : List Char) : Nat := l.foldl (fun a c => a * 10 + decVal c) 0

/-- Decimal printing of a natural number, fuelled. -/
def natToDecAux : Nat → Nat → List Char
  | 0, _ => []
  | f+1, n =>
    if n < 10 then [decDigit n]
    else natToDecAux f (n / 10) ++ [decDigit (n % 10)]

/-- Decimal printing of a natural number (Python `f"{n}"`). -/
def natToDec (n : Nat) : List Char := natToDecAux (n + 1) n

/-- The candidate name `f"{base} {k}"` tried on a collision (line 968). -/
def numberedName (base : List Char) (k : Nat) : List Char :=
  base ++ ' ' :: natToDec k

/-- The collision loop of lines 965-969: starting at counter `k`, return the
first `f"{base} {k}"` that is not among the used names.  The fuel is an upper
bound on the number of iterations; `used.length + 1` candidates cannot all
collide, so the fuel below never runs out. -/
def tryNames (base : List Char) (used : List (List Char)) : Nat → Nat → List Char
  | 0, k => numberedName base k
  | f+1, k =>
    if numberedName base k ∈ used then tryNames base used f (k + 1)
    else numberedName base k

/-- Lines 964-969: keep `base` unless it collides with an already assigned
clean name, else append ` 1`, ` 2`, ... until the name is fresh. -/
def uniquifyName (base : List Char) (used : List (List Char)) : List Char :=
  if base ∈ used then tryNames base used (used.length + 1) 1 else base

/-- The mapping loop of `create_subpage_mapping` (lines 951-972), carrying
the list of already assigned clean names.  Each produced entry is
`(html_file, new_filename, clean_name)`, mirroring the Python dict entry
`html_file -> (f"{clean_name}.html", clean_name, html_file)`. -/
def subpageMapAux : List (List String) → List (List Char) →
    List (List String × String × String)
  | [], _ => []
  | f :: fs, used =>
    (f, ⟨uniquifyName (subpageBaseName (stemSuffix (pathName f).data).1) used ++
          ".html".data⟩,
      ⟨uniquifyName (subpageBaseName (stemSuffix (pathName f).data).1) used⟩) ::
      subpageMapAux fs
        (uniquifyName (subpageBaseName (stemSuffix (pathName f).data).1) used :: used)

/-- `WebsiteThemeApplicator.create_subpage_mapping` (apply_theme.py lines
944-974). -/
def create_subpage_mapping (files : List (List String)) :
    List (List String × String × String) :=
  subpageMapAux files []


/-! ### html_bundle_extractor.py: `extract_nested_archives` (claim C4) -/

/-- A filesystem tree entry: a plain file, a directory with contents, or a
`.zip` archive (named `stem + ".zip"`) whose extracted contents are known. -/
inductive FSEntry where
  | file : String → FSEntry
  | dir : String → List FSEntry → FSEntry
  | zip : String → List FSEntry → FSEntry
deriving Repr, BEq

/-- The filesystem name of an entry; a zip archive with stem `s` is the file
`s ++ ".zip"`. -/
def entryName : FSEntry → String
  | FSEntry.file n => n
  | FSEntry.dir n _ => n
  | FSEntry.zip s _ => s ++ ".zip"

/-- The `extract_dir.exists()` check next to a zip (line 696): true when ANY
entry — plain file, directory or archive — named `s` is present, exactly as
`Path.exists` is. -/
def hasEntryNamed (s : String) (entries : List FSEntry) : Bool :=
  entries.any fun e => entryName e == s

/-- `HTMLBundleExtractor.extract_nested_archives` (html_bundle_extractor.py
lines 678-727), processing the entries of a directory whose full sibling
list is `sib`: for every `*.zip` found (recursively, also inside
subdirectories, which the top-level `rglob` visits at the same `level`), the
zip is skipped and kept when an entry named after its stem exists
(`extract_dir.exists()`); otherwise `extract_dir.mkdir` runs and the
`ZipFile`/`extractall` attempt is modelled by the oracle `ok`: on failure
(`BadZipFile`/`Exception`, lines 722-727) the `continue` keeps the zip —
even when `cleanup` is set — and only the freshly created empty directory
remains (a mid-`extractall` exception leaving partial content is abstracted
to this clean-failure case); on success the contents land in the stem
directory, which is recursed into at `level + 1` only while `level < 5`, and
the zip is deleted exactly when `cleanup` is set.  `fuel` bounds the depth
of nested `extract_nested_archives` invocations; `none` means the fuel ran
out before the level guard stopped the recursion. -/
def processEntries (ok : FSEntry → Bool) (cleanup : Bool) :
    Nat → Nat → List FSEntry → List FSEntry → Option (List FSEntry)
  | _, _, _, [] => some []
  | fuel, level, sib, FSEntry.file n :: rest =>
    (processEntries ok cleanup fuel level sib rest).map fun r => FSEntry.file n :: r
  | fuel, level, sib, FSEntry.dir n es :: rest =>
    (processEntries ok cleanup fuel level es es).bind fun inner =>
      (processEntries ok cleanup fuel level sib rest).map fun r => FSEntry.dir n inner :: r
  | fuel, level, sib, FSEntry.zip s c :: rest =>
    if hasEntryNamed s sib then
      (processEntries ok cleanup fuel level sib rest).map fun r => FSEntry.zip s c :: r
    else
      if ok (FSEntry.zip s c) then
        if level < 5 then
          match fuel with
          | 0 => none
          | f+1 =>
            (processEntries ok cleanup f (level + 1) c c).bind fun inner =>
              (processEntries ok cleanup (f + 1) level sib rest).map fun r =>
                (if cleanup then [] else [FSEntry.zip s c]) ++ FSEntry.dir s inner :: r
        else
          (processEntries ok cleanup fuel level sib rest).map fun r =>
            (if cleanup then [] else [FSEntry.zip s c]) ++ FSEntry.dir s c :: r
      else
        (processEntries ok cleanup fuel level sib rest).map fun r =>
          FSEntry.zip s c :: FSEntry.dir s [] :: r

/-- `extract_nested_archives(directory, level)` on the contents of the
directory. -/
def extract_nested_archives (ok : FSEntry → Bool) (cleanup : Bool) (fuel level : Nat)
    (entries : List FSEntry) : Option (List FSEntry) :=
  processEntries ok cleanup fuel level entries entries


/-! ### html_bundle_extractor.py: `fix_internal_links` (claims C2 and C7) -/

/-- Python `pat in s` (substring containment). -/
def containsSub (s pat : List Char) : Bool :=
  match s with
  | [] => pat.isEmpty
  | _ :: t => startsL pat s || containsSub t pat

/-- Value of one hex digit (either case), as used by percent-decoding. -/
def hexVal (c : Char) : Option Nat :=
  if '0' ≤ c && c ≤ '9' then some (c.toNat - 48)
  else if 'a' ≤ c && c ≤ 'f' then some (c.toNat - 87)
  else if 'A' ≤ c && c ≤ 'F' then some (c.toNat - 55)
  else none

/-- `urllib.parse.unquote` (ASCII scope: each valid `%XX` becomes the
character with code `XX`; invalid escapes are kept verbatim). -/
def pyUnquoteL : List Char → List Char
  | [] => []
  | '%' :: a :: b :: t =>
    match hexVal a, hexVal b with
    | some x, some y => Char.ofNat (16 * x + y) :: pyUnquoteL t
    | _, _ => '%' :: pyUnquoteL (a :: b :: t)
  | c :: t => c :: pyUnquoteL t

/-- `re.search(r'([a-f0-9]{32}|[a-f0-9]{8}-[a-f0-9]{4}-[a-f0-9]{4}-[a-f0-9]{4}-[a-f0-9]{12})', s)`:
leftmost match, the 32-hex alternative preferred at equal positions. -/
def uuidSearch : List Char → Option (List Char)
  | [] => none
  | c :: t =>
    if (chopHex 32 (c :: t)).isSome then some ((c :: t).take 32)
    else if (chopHyphenUuid (c :: t)).isSome then some ((c :: t).take 36)
    else uuidSearch t

/-- `re.search(r'([a-f0-9]{32})', s)`: leftmost 32-hex run. -/
def hex32Search : List Char → Option (List Char)
  | [] => none
  | c :: t =>
    if (chopHex 32 (c :: t)).isSome then some ((c :: t).take 32) else hex32Search t

/-- The hyphenated `8-4-4-4-12` form of a 32-hex UUID (line 838). -/
def uuidFormatted (u : List Char) : List Char :=
  u.take 8 ++ '-' :: ((u.drop 8).take 4 ++ '-' :: ((u.drop 12).take 4 ++ '-' ::
    ((u.drop 16).take 4 ++ '-' :: u.drop 20)))

/-- Python dict assignment `m[k] = v`: overwrite in place, or append. -/
def insertAssoc (k : String) (v : List String) :
    List (String × List String) → List (String × List String)
  | [] => [(k, v)]
  | (k', v') :: rest =>
    if k' = k then (k, v) :: rest else (k', v') :: insertAssoc k v rest

/-- Python dict lookup. -/
def lookupAssoc (k : String) : List (String × List String) → Option (List String)
  | [] => none
  | (k', v) :: rest => if k' = k then some v else lookupAssoc k rest

/-- `uuid_to_file` (html_bundle_extractor.py lines 819-840): for each known
HTML file whose name contains a 32-hex UUID, map the UUID, its hyphenated
form, and the de-hyphenated hyphenated form to the file. -/
def buildUuidMap : List (List String) → List (String × List String) →
    List (String × List String)
  | [], m => m
  | p :: ps, m =>
    match hex32Search (pathName p).data with
    | some u =>
      buildUuidMap ps
        (insertAssoc ⟨pyReplaceL (uuidFormatted u) ['-'] []⟩ p
          (insertAssoc ⟨uuidFormatted u⟩ p (insertAssoc ⟨u⟩ p m)))
    | none => buildUuidMap ps m

/-- `filename_to_file` (lines 821-828): map each file's name and stem to the
file. -/
def buildFnameMap : List (List String) → List (String × List String) →
    List (String × List String)
  | [], m => m
  | p :: ps, m =>
    buildFnameMap ps
      (insertAssoc ⟨(stemSuffix (pathName p).data).1⟩ p
        (insertAssoc (pathName p) p m))

/-- Length of the common component run of two paths. -/
def commonPrefixLen : List String → List String → Nat
  | a :: as, b :: bs => if a = b then commonPrefixLen as bs + 1 else 0
  | _, _ => 0

/-- `os.path.relpath(target, fromDir)` on component lists: walk up with `..`
past the non-shared part of `fromDir`, then down into `target`. -/
def relpathComponents (target fromDir : List String) : List String :=
  List.replicate (fromDir.length - commonPrefixLen target fromDir) ".." ++
    target.drop (commonPrefixLen target fromDir)

/-- Join path components with forward slashes (the code joins with `os.sep`
and then replaces every separator by `/`, which is the same thing). -/
def joinSlash (l : List String) : String :=
  ⟨joinWith ['/'] (l.map String.data)⟩

/-- The basename of a posix path string (the part after the last `/`). -/
def baseNameOf (s : List Char) : List Char :=
  (s.reverse.takeWhile (fun c => !(c == '/'))).reverse

/-- The partial-match fallback of `fix_link` (lines 882-887): the first map
entry whose key contains the href's base stem or is contained in it. -/
def findPartial (base : List Char) : List (String × List String) → Option (List String)
  | [] => none
  | (fn, p) :: rest =>
    if containsSub fn.data base || containsSub base fn.data then some p
    else findPartial base rest

/-- The local-link handling of `fix_link` (lines 870-900): direct filename
match, decoded match, then partial stem match; rewrite to the relative path
on success, keep the attribute otherwise. -/
def fixLinkLocal (htmlDir : List String) (fnameMap : List (String × List String))
    (v : String) : String :=
  match
    (match lookupAssoc v fnameMap with
     | some t => some t
     | none =>
       match lookupAssoc ⟨pyUnquoteL v.data⟩ fnameMap with
       | some t => some t
       | none => findPartial (stemSuffix (baseNameOf (pyUnquoteL v.data))).1 fnameMap)
  with
  | some tgt => "href=\"" ++ joinSlash (relpathComponents tgt htmlDir) ++ "\""
  | none => "href=\"" ++ v ++ "\""

/-- `fix_link` (html_bundle_extractor.py lines 843-900), acting on one href
value `v`; `htmlDir` is the current HTML file's directory (components
relative to the output directory, like all paths of the model). -/
def fix_link (htmlDir : List String) (uuidMap fnameMap : List (String × List String))
    (v : String) : String :=
  if startsL "mailto:".data v.data || startsL "#".data v.data ||
      ((startsL "http://".data v.data || startsL "https://".data v.data) &&
        !containsSub v.data "notion.so".data) then
    "href=\"" ++ v ++ "\""
  else
    match (if containsSub v.data "notion.so".data then uuidSearch v.data else none) with
    | some u =>
      match lookupAssoc ⟨pyReplaceL u ['-'] []⟩ uuidMap with
      | some tgt => "href=\"" ++ joinSlash (relpathComponents tgt htmlDir) ++ "\""
      | none => fixLinkLocal htmlDir fnameMap v
    | none => fixLinkLocal htmlDir fnameMap v

/-- Generic fuelled regex-substitution scanner: at each position, `try_`
either consumes a match (returning the replacement text and the rest of the
input) or the scanner keeps one character and moves on.  Models Python
`re.sub` with non-overlapping leftmost matches. -/
def scanRw (try_ : List Char → Option (List Char × List Char)) :
    Nat → List Char → List Char
  | _, [] => []
  | 0, s => s
  | f+1, c :: t =>
    match try_ (c :: t) with
    | some (o, r) => o ++ scanRw try_ f r
    | none => c :: scanRw try_ f t

/-- Run the substitution scanner with sufficient fuel. -/
def runScan (try_ : List Char → Option (List Char × List Char)) (s : List Char) :
    List Char :=
  scanRw try_ s.length s

/-- One attempted match of the regex `href="([^"]*)"` at the current
position, replaced through `fix_link`. -/
def hrefTry (htmlDir : List String) (uuidMap fnameMap : List (String × List String))
    (s : List Char) : Option (List Char × List Char) :=
  if startsL "href=\"".data s then
    if (List.takeWhile (fun c => !(c == '"')) (s.drop 6)).length < (s.drop 6).length then
      some ((fix_link htmlDir uuidMap fnameMap
          ⟨List.takeWhile (fun c => !(c == '"')) (s.drop 6)⟩).data,
        (s.drop 6).drop ((List.takeWhile (fun c => !(c == '"')) (s.drop 6)).length + 1))
    else none
  else none

/-- `HTMLBundleExtractor.fix_internal_links` (html_bundle_extractor.py lines
805-915): apply `fix_link` to every `href="..."` attribute; the second
component is the returned value, `True` exactly when the content changed
(and was written back). -/
def fix_internal_links (htmlDir : List String) (files : List (List String))
    (content : String) : String × Bool :=
  (⟨runScan (hrefTry htmlDir (buildUuidMap files []) (buildFnameMap files [])) content.data⟩,
    decide (¬ runScan (hrefTry htmlDir (buildUuidMap files []) (buildFnameMap files []))
      content.data = content.data))


/-! ### html_bundle_extractor.py: `convert_all_heic_files` and
`update_heic_references_in_html` (claim C1) -/

/-- Does the name carry one of the four HEIC/HEIF extensions the tool globs
for (`*.heic`, `*.HEIC`, `*.heif`, `*.HEIF`, case-sensitively)? -/
def isHeicSuffixName (n : List Char) : Bool :=
  strEndsWith ".heic".data n || strEndsWith ".HEIC".data n ||
  strEndsWith ".heif".data n || strEndsWith ".HEIF".data n

/-- `heic_file.with_suffix('.png')`: same directory, same stem, `.png`
extension. -/
def pngOf (p : List String) : List String :=
  p.dropLast ++ [⟨(stemSuffix (pathName p).data).1 ++ ".png".data⟩]

/-- The files found by the four `rglob` patterns, in pattern order
(html_bundle_extractor.py lines 66-71). -/
def heicFound (tree : List (List String)) : List (List String) :=
  tree.filter (fun p => strEndsWith ".heic".data (pathName p).data) ++
  tree.filter (fun p => strEndsWith ".HEIC".data (pathName p).data) ++
  tree.filter (fun p => strEndsWith ".heif".data (pathName p).data) ++
  tree.filter (fun p => strEndsWith ".HEIF".data (pathName p).data)

/-- The conversion loop (lines 85-103): for each found HEIC file whose
conversion succeeds (`ok`, the PIL oracle: the image is decoded, converted
to RGB when needed, and saved as PNG), the PNG appears next to the original
and the original is deleted; the conversion is recorded. -/
def convertFold (ok : List String → Bool) :
    List (List String) → List (List String) → List (List String × List String) →
    List (List String) × List (List String × List String)
  | [], tree, convs => (tree, convs)
  | f :: fs, tree, convs =>
    if ok f then convertFold ok fs (tree.erase f ++ [pngOf f]) (convs ++ [(f, pngOf f)])
    else convertFold ok fs tree convs

/-- `HTMLBundleExtractor.convert_all_heic_files` (lines 61-111) on the
recursive listing `tree`: the resulting listing and the conversion list
passed to `update_heic_references_in_html`. -/
def convert_all_heic_files (ok : List String → Bool) (tree : List (List String)) :
    List (List String) × List (List String × List String) :=
  convertFold ok (heicFound tree) tree []

/-- One uppercase hex digit. -/
def hexUpper (n : Nat) : Char :=
  match n with
  | 0 => '0' | 1 => '1' | 2 => '2' | 3 => '3' | 4 => '4' | 5 => '5' | 6 => '6'
  | 7 => '7' | 8 => '8' | 9 => '9' | 10 => 'A' | 11 => 'B' | 12 => 'C' | 13 => 'D'
  | 14 => 'E' | _ => 'F'

/-- The characters `urllib.parse.quote` keeps (unreserved plus the default
safe character `/`). -/
def quoteSafe (c : Char) : Bool :=
  ('a' ≤ c && c ≤ 'z') || ('A' ≤ c && c ≤ 'Z') || ('0' ≤ c && c ≤ '9') ||
  c == '_' || c == '.' || c == '~' || c == '-' || c == '/'

/-- `urllib.parse.quote` (ASCII scope): percent-encode everything outside
the safe set. -/
def pyQuoteL (s : List Char) : List Char :=
  (s.map fun c =>
    if quoteSafe c then [c]
    else ['%', hexUpper (c.toNat / 16 % 16), hexUpper (c.toNat % 16)]).flatten

/-- String wrapper for `pyQuoteL`. -/
def pyQuoteS (s : String) : String := ⟨pyQuoteL s.data⟩

/-- The replacement patterns tried for one conversion `(h, p)` in one HTML
file (lines 137-154): plain name, relative path (twice: with `os.sep` and
with forward slashes, identical here), their URL-quoted forms, and, for each
extension whose lowercase form equals the file's lowercase suffix, the stem
with that extension and its quoted form. -/
def heicPatterns (htmlDir : List String) (h : List String) : List String :=
  [pathName h,
   joinSlash (relpathComponents h htmlDir),
   joinSlash (relpathComponents h htmlDir),
   pyQuoteS (pathName h),
   pyQuoteS (joinSlash (relpathComponents h htmlDir)),
   pyQuoteS (joinSlash (relpathComponents h htmlDir))] ++
  (([".heic", ".HEIC", ".heif", ".HEIF"] : List String).foldr
    (fun ext acc =>
      if pyLowerS ⟨(stemSuffix (pathName h).data).2⟩ = pyLowerS ext then
        (⟨(stemSuffix (pathName h).data).1 ++ ext.data⟩ : String) ::
          pyQuoteS ⟨(stemSuffix (pathName h).data).1 ++ ext.data⟩ :: acc
      else acc) [])

/-- Applying one conversion's patterns to the HTML content (lines 156-161):
each pattern present in the content is replaced by the PNG's base filename. -/
def updateOneConversion (htmlDir : List String) (content : List Char)
    (hp : List String × List String) : List Char :=
  (heicPatterns htmlDir hp.1).foldl
    (fun c pat =>
      if containsSub c pat.data then pyReplaceL c pat.data (pathName hp.2).data else c)
    content

/-- `HTMLBundleExtractor.update_heic_references_in_html` (lines 113-179) on
one HTML file's content, `htmlDir` being the file's directory. -/
def update_heic_references_in_html (htmlDir : List String)
    (convs : List (List String × List String)) (content : String) : String :=
  ⟨convs.foldl (updateOneConversion htmlDir) content.data⟩

/-! ### apply_theme.py: `convert_table_layout_to_grid` (claim C6) -/

/-- Case-insensitive prefix match against an (already lowercase) literal
pattern, modelling `re.IGNORECASE` matching of a regex literal. -/
def startsLCI : List Char → List Char → Bool
  | [], _ => true
  | _ :: _, [] => false
  | p :: pt, c :: ct => (pyLowerChar c == p) && startsLCI pt ct

/-- Index of the leftmost case-insensitive occurrence of `pat`: models the
lazy `(.*?)` group stopping at the first position where the literal that
follows it matches. -/
def findSubCI (pat : List Char) : List Char → Option Nat
  | [] => if startsLCI pat [] then some 0 else none
  | c :: t =>
    if startsLCI pat (c :: t) then some 0
    else (findSubCI pat t).map (· + 1)

/-- Match `<table[^>]*>` (resp. `<td[^>]*>` via `tdAfterOpen`) at the start
of the input: the tag literal case-insensitively, then the maximal run of
non-`>` characters, then a literal `>`; returns the rest of the input. -/
def afterOpenTag (tag : List Char) (s : List Char) : Option (List Char) :=
  if startsLCI tag s then
    match (s.drop tag.length).drop
        ((s.drop tag.length).takeWhile (fun c => !(c == '>'))).length with
    | c :: rest => if c == '>' then some rest else none
    | [] => none
  else none

/-- One attempted match of `<td[^>]*>` (the cell-counting regex,
`re.IGNORECASE`). -/
def tdAfterOpen (s : List Char) : Option (List Char) :=
  afterOpenTag "<td".data s

/-- Fuelled non-overlapping match counter: models `len(re.findall(...))`. -/
def scanCount (try_ : List Char → Option (List Char)) : Nat → List Char → Nat
  | _, [] => 0
  | 0, _ => 0
  | f+1, c :: t =>
    match try_ (c :: t) with
    | some r => 1 + scanCount try_ f r
    | none => scanCount try_ f t

/-- `len(re.findall(r'<td[^>]*>', table_content, re.IGNORECASE))`. -/
def tdCount (inner : List Char) : Nat :=
  scanCount tdAfterOpen inner.length inner

/-- One attempted match of `<td[^>]*>(.*?)</td>` (`re.DOTALL | re.IGNORECASE`):
the group is everything up to the nearest case-insensitive `</td>`. -/
def tdCellTry (s : List Char) : Option (List Char × List Char) :=
  match tdAfterOpen s with
  | some rest =>
    match findSubCI "</td>".data rest with
    | some j => some (rest.take j, rest.drop (j + 5))
    | none => none
  | none => none

/-- Fuelled non-overlapping group collector: models `re.findall` with one
capture group. -/
def scanList (try_ : List Char → Option (List Char × List Char)) :
    Nat → List Char → List (List Char)
  | _, [] => []
  | 0, _ => []
  | f+1, c :: t =>
    match try_ (c :: t) with
    | some (g, r) => g :: scanList try_ f r
    | none => scanList try_ f t

/-- `re.findall(r'<td[^>]*>(.*?)</td>', table_content, re.DOTALL | re.IGNORECASE)`. -/
def tdCells (inner : List Char) : List (List Char) :=
  scanList tdCellTry inner.length inner

/-- The grid class chosen from the `<td[^>]*>` count (apply_theme.py lines
525-531). -/
def gridClass (cnt : Nat) : List Char :=
  "image-grid".data ++
    (if cnt = 2 then " two-column".data
     else if cnt = 3 then " three-column".data
     else if 4 ≤ cnt then " four-column".data
     else [])

/-- The wrapper for one extracted cell (lines 534-538): an
`image-with-caption` div with empty caption when the cell contains `<img>`
(case-sensitive Python `in`), a plain div otherwise. -/
def cellHtml (cell : List Char) : List Char :=
  if containsSub cell "<img".data then
    "<div class=\"image-with-caption\">".data ++ cell ++
      "<div class=\"caption\"></div></div>".data
  else
    "<div>".data ++ cell ++ "</div>".data

/-- `replace_table_with_grid` (lines 516-541): the replacement built from
the table's inner content. -/
def gridHtml (inner : List Char) : List Char :=
  "<div class=\"".data ++ gridClass (tdCount inner) ++ "\">".data ++
    ((tdCells inner).map cellHtml).flatten ++ "</div>".data

/-- One attempted match of `<table[^>]*>(.*?)</table>`
(`re.DOTALL | re.IGNORECASE`) replaced through `replace_table_with_grid`. -/
def tableTry (s : List Char) : Option (List Char × List Char) :=
  match afterOpenTag "<table".data s with
  | some rest =>
    match findSubCI "</table>".data rest with
    | some j => some (gridHtml (rest.take j), rest.drop (j + 8))
    | none => none
  | none => none

/-- `WebsiteThemeApplicator.convert_table_layout_to_grid` (apply_theme.py
lines 513-549): `re.sub` of every table block by its grid replacement. -/
def convert_table_layout_to_grid (content : String) : String :=
  ⟨runScan tableTry content.data⟩

/-! ### apply_theme.py: `copy_and_fix_images` (claim C8) -/

/-- One attempted match of `src="([^"]*)"` (apply_theme.py line 212). -/
def srcAttrTry (s : List Char) : Option (List Char × List Char) :=
  if startsL "src=\"".data s then
    if ((s.drop 5).takeWhile (fun c => !(c == '"'))).length < (s.drop 5).length then
      some ((s.drop 5).takeWhile (fun c => !(c == '"')),
        (s.drop 5).drop (((s.drop 5).takeWhile (fun c => !(c == '"'))).length + 1))
    else none
  else none

/-- `re.findall(r'src="([^"]*)"', html_content)` (line 213). -/
def imgMatches (content : List Char) : List (List Char) :=
  scanList srcAttrTry content.length content

/-- `Path(s).name` for a POSIX path string: the last component, with empty
and `.` components dropped. -/
def lastComponent (s : List Char) : List Char :=
  ((splitOnL s ['/']).filter (fun comp => !comp.isEmpty && !(comp == ['.']))).getLastD []

/-- The per-src classification loop (lines 218-263): an empty src is
skipped; a src whose URL-decoded, lowercased extension is `.heic`/`.heif`
goes to the unsupported list with `Path(decoded).name` and is never offered
to the copy step; otherwise the file probe `find_` (abstracting the
`potential_paths` list, the `os.walk` search, `Path.exists` and
`shutil.copy2`) may yield the copied filename. -/
def classifySrcs (find_ : List Char → Option (List Char)) :
    List (List Char) → List (List Char × List Char) × List (List Char × List Char)
  | [] => ([], [])
  | src :: rest =>
    if src.isEmpty then classifySrcs find_ rest
    else
      if pyLowerL (stemSuffix (lastComponent (pyUnquoteL src))).2 = ".heic".data ∨
          pyLowerL (stemSuffix (lastComponent (pyUnquoteL src))).2 = ".heif".data then
        ((classifySrcs find_ rest).1,
          (src, lastComponent (pyUnquoteL src)) :: (classifySrcs find_ rest).2)
      else
        match find_ (pyUnquoteL src) with
        | some fn => ((src, fn) :: (classifySrcs find_ rest).1, (classifySrcs find_ rest).2)
        | none => classifySrcs find_ rest

/-- `copied_images` after the loop. -/
def copiedImages (find_ : List Char → Option (List Char)) (content : List Char) :
    List (List Char × List Char) :=
  (classifySrcs find_ (imgMatches content)).1

/-- `unsupported_images` after the loop. -/
def unsupportedImages (find_ : List Char → Option (List Char)) (content : List Char) :
    List (List Char × List Char) :=
  (classifySrcs find_ (imgMatches content)).2

/-- The copied-image rewrite for one entry (lines 266-270). -/
def applyCopied (sameDir : Bool) (content : List Char) (pr : List Char × List Char) :
    List Char :=
  pyReplaceL content ("src=\"".data ++ pr.1 ++ "\"".data)
    ("src=\"".data ++ (if sameDir then pr.2 else "./".data ++ pr.2) ++ "\"".data)

/-- The placeholder comment (line 275). -/
def imgCommentOf (fname : List Char) : List Char :=
  "<!-- UNSUPPORTED IMAGE FORMAT: ".data ++ fname ++
    " (HEIC files not supported by browsers) -->".data

/-- One attempted match of `<img[^>]*src="OLD"[^>]*>` (line 274): an `<img`
whose attribute run (maximal `>`-free, since `[^>]*` cannot cross `>`)
contains the literal `src="OLD"` and is closed by `>`; replaced by the
comment. -/
def imgTagTry (oldSrc comment : List Char) (s : List Char) :
    Option (List Char × List Char) :=
  if startsL "<img".data s then
    if containsSub ((s.drop 4).takeWhile (fun c => !(c == '>')))
          ("src=\"".data ++ oldSrc ++ "\"".data) = true ∧
        ((s.drop 4).takeWhile (fun c => !(c == '>'))).length < (s.drop 4).length then
      some (comment,
        (s.drop 4).drop (((s.drop 4).takeWhile (fun c => !(c == '>'))).length + 1))
    else none
  else none

/-- Does a `>`-free attribute run contain `href="[^"]*FNAME"`: some
occurrence of `href="` whose following `"`-free run ends with `FNAME` and is
closed by `"`. -/
def hrefMatchIn (fname : List Char) : List Char → Bool
  | [] => false
  | c :: t =>
    (startsL "href=\"".data (c :: t) &&
      decide ((((c :: t).drop 6).takeWhile (fun ch => !(ch == '"'))).length <
        ((c :: t).drop 6).length) &&
      strEndsWith fname (((c :: t).drop 6).takeWhile (fun ch => !(ch == '"')))) ||
    hrefMatchIn fname t

/-- One attempted match of `<a[^>]*href="[^"]*FNAME"[^>]*>`: returns the
text after the closing `>`. -/
def aTagTry (fname : List Char) (s : List Char) : Option (List Char) :=
  if startsL "<a".data s then
    if hrefMatchIn fname ((s.drop 2).takeWhile (fun c => !(c == '>'))) = true ∧
        ((s.drop 2).takeWhile (fun c => !(c == '>'))).length < (s.drop 2).length then
      some ((s.drop 2).drop (((s.drop 2).takeWhile (fun c => !(c == '>'))).length + 1))
    else none
  else none

/-- Position of the lazy `.*?` before the `<a ...>` part: the leftmost
match. -/
def findATag (fname : List Char) : List Char → Option (List Char)
  | [] => none
  | c :: t =>
    match aTagTry fname (c :: t) with
    | some r => some r
    | none => findATag fname t

/-- Case-sensitive leftmost-occurrence index of a literal. -/
def findSubAt (pat : List Char) : List Char → Option Nat
  | [] => if startsL pat [] then some 0 else none
  | c :: t => if startsL pat (c :: t) then some 0 else (findSubAt pat t).map (· + 1)

/-- One attempted match of the figure-wrapper pattern (line 279):
`<figure[^>]*>.*?<a[^>]*href="[^"]*FNAME"[^>]*>.*?</a>.*?</figure>` with
`re.DOTALL`; replaced by the comment. -/
def figureTry (fname comment : List Char) (s : List Char) :
    Option (List Char × List Char) :=
  if startsL "<figure".data s then
    if ((s.drop 7).takeWhile (fun c => !(c == '>'))).length < (s.drop 7).length then
      match findATag fname
          ((s.drop 7).drop (((s.drop 7).takeWhile (fun c => !(c == '>'))).length + 1)) with
      | some rest2 =>
        match findSubAt "</a>".data rest2 with
        | some k =>
          match findSubAt "</figure>".data (rest2.drop (k + 4)) with
          | some l => some (comment, (rest2.drop (k + 4)).drop (l + 9))
          | none => none
        | none => none
      | none => none
    else none
  else none

/-- The unsupported-image rewrite for one entry (lines 272-280): the img-tag
sub, then the figure-wrapper sub, both with the same comment. -/
def applyUnsupported (content : List Char) (pr : List Char × List Char) : List Char :=
  runScan (figureTry pr.2 (imgCommentOf pr.2))
    (runScan (imgTagTry pr.1 (imgCommentOf pr.2)) content)

/-- `WebsiteThemeApplicator.copy_and_fix_images` (apply_theme.py lines
204-284) on the HTML content: `find_` abstracts the filesystem probe and
copy, `sameDir` is `target_dir == source_dir`; the returned string is the
updated content. -/
def copy_and_fix_images (find_ : List Char → Option (List Char)) (sameDir : Bool)
    (content : String) : String :=
  ⟨(unsupportedImages find_ content.data).foldl applyUnsupported
    ((copiedImages find_ content.data).foldl (applyCopied sameDir) content.data)⟩

-- ===================================================================
-- Theorems
-- ===================================================================

/-- `splitAux` never returns an empty list of pieces. -/
theorem splitAux_ne_nil (pat : List Char) (f : Nat) (s : List Char) :
    splitAux pat f s ≠ [] := by
  induction f generalizing s with
  | zero => cases s <;> simp [splitAux]
  | succ f ih =>
    cases s with
    | nil => simp [splitAux]
    | cons c t =>
      by_cases h : startsL pat (c :: t)
      · simp [splitAux, h]
      · simp only [splitAux, h]
        rcases hq : splitAux pat f t with _ | ⟨q, qs⟩
        · exact (ih t hq).elim
        · simp

/-- The replace scanner agrees with split-then-join, fuel by fuel. -/
theorem replAux_eq_joinWith (pat rep : List Char) (f : Nat) (s : List Char) :
    replAux pat rep f s = joinWith rep (splitAux pat f s) := by
  induction f generalizing s with
  | zero => cases s <;> simp [replAux, splitAux, joinWith]
  | succ f ih =>
    cases s with
    | nil => simp [replAux, splitAux, joinWith]
    | cons c t =>
      by_cases h : startsL pat (c :: t)
      · simp only [replAux, splitAux, h, if_true, ih]
        rcases hq : splitAux pat f (List.drop pat.length (c :: t)) with _ | ⟨q, qs⟩
        · exact (splitAux_ne_nil pat f _ hq).elim
        · simp [joinWith]
      · simp only [replAux, splitAux, h, if_false, ih]
        rcases hq : splitAux pat f t with _ | ⟨q, qs⟩
        · exact (splitAux_ne_nil pat f t hq).elim
        · cases qs <;> simp [joinWith]

/-- Python `str.replace` replaces every (non-overlapping, leftmost)
occurrence of the pattern: it equals splitting on the pattern and joining
with the replacement. -/
theorem pyReplaceL_eq_joinWith (s pat rep : List Char) :
    pyReplaceL s pat rep = joinWith rep (splitOnL s pat) := by
  unfold pyReplaceL splitOnL
  by_cases h : pat.isEmpty
  · simp [h, joinWith]
  · simp [h, replAux_eq_joinWith]

/-- String version of `pyReplaceL_eq_joinWith`. -/
theorem pyReplaceS_eq_replacedEveryS (s pat rep : String) :
    pyReplaceS s pat rep = replacedEveryS s pat rep := by
  unfold pyReplaceS replacedEveryS
  rw [pyReplaceL_eq_joinWith]

/-- C5: for every successfully processed HTML file, the content written back
equals the fixed built-in template with every occurrence of `{{TITLE}}`
replaced by the extracted title and then every occurrence of `{{CONTENT}}`
replaced by the extracted content, and the function returns `True`. -/
theorem c5_process_html_file_applies_template (ex : ExtractResult) :
    process_html_file generic_template ex =
      (replacedEveryS (replacedEveryS generic_template titlePlaceholder ex.title)
        contentPlaceholder ex.content, true) := by
  unfold process_html_file apply_template
  rw [pyReplaceS_eq_replacedEveryS, pyReplaceS_eq_replacedEveryS]

/-- `chopHex` returns a sublist (a suffix) of its input. -/
theorem chopHex_sublist {n : Nat} {u r : List Char} (h : chopHex n u = some r) :
    r.Sublist u := by
  unfold chopHex at h
  split at h
  · cases h; exact List.drop_sublist n u
  · cases h

/-- `chopChar` returns a sublist (the tail) of its input. -/
theorem chopChar_sublist {x : Char} {u r : List Char} (h : chopChar x u = some r) :
    r.Sublist u := by
  cases u with
  | nil => simp [chopChar] at h
  | cons c t =>
    simp only [chopChar] at h
    by_cases hx : (c == x) = true
    · rw [if_pos hx] at h
      cases h
      exact (List.Sublist.refl _).cons c
    · rw [if_neg hx] at h
      cases h

/-- `chopHyphenUuid` returns a sublist of its input. -/
theorem chopHyphenUuid_sublist {u r : List Char} (h : chopHyphenUuid u = some r) :
    r.Sublist u := by
  unfold chopHyphenUuid at h
  simp only [Option.bind_eq_some] at h
  obtain ⟨s1, h1, s2, h2, s3, h3, s4, h4, s5, h5, s6, h6, s7, h7, s8, h8, h9⟩ := h
  exact (chopHex_sublist h9).trans <| (chopChar_sublist h8).trans <|
    (chopHex_sublist h7).trans <| (chopChar_sublist h6).trans <|
    (chopHex_sublist h5).trans <| (chopChar_sublist h4).trans <|
    (chopHex_sublist h3).trans <| (chopChar_sublist h2).trans (chopHex_sublist h1)

/-- Characters of a `subChopAux` result come from the input. -/
theorem mem_subChopAux {chop : List Char → Option (List Char)}
    (hch : ∀ u r, chop u = some r → r.Sublist u) (f : Nat) (s : List Char) {c : Char}
    (hc : c ∈ subChopAux chop f s) : c ∈ s := by
  induction f generalizing s with
  | zero =>
    cases s with
    | nil => simp [subChopAux] at hc
    | cons a t => exact hc
  | succ f ih =>
    cases s with
    | nil => simp [subChopAux] at hc
    | cons a t =>
      rcases hm : chop (a :: t) with _ | rest
      · simp only [subChopAux, hm, List.mem_cons] at hc
        rcases hc with rfl | hc
        · exact List.mem_cons_self _ _
        · exact List.mem_cons_of_mem a (ih t hc)
      · simp only [subChopAux, hm] at hc
        exact List.Sublist.mem (ih rest hc) (hch _ _ hm)

/-- Characters of `subTrailWsHex32 s` come from `s`. -/
theorem mem_subTrailWsHex32 {s : List Char} {c : Char} (hc : c ∈ subTrailWsHex32 s) :
    c ∈ s := by
  simp only [subTrailWsHex32] at hc
  split at hc
  · split at hc
    · exact hc
    · rw [List.mem_reverse] at hc
      exact List.mem_reverse.mp
        (List.Sublist.mem (List.Sublist.mem hc (List.dropWhile_sublist _))
          (List.drop_sublist _ _))
  · exact hc

/-- Characters of `subTrailHex32 s` come from `s`. -/
theorem mem_subTrailHex32 {s : List Char} {c : Char} (hc : c ∈ subTrailHex32 s) :
    c ∈ s := by
  simp only [subTrailHex32] at hc
  split at hc
  · rw [List.mem_reverse] at hc
    exact List.mem_reverse.mp (List.Sublist.mem hc (List.drop_sublist _ _))
  · exact hc

/-- Characters of `wsNormAux s b` are spaces or come from `s`. -/
theorem mem_wsNormAux {s : List Char} {b : Bool} {c : Char} (hc : c ∈ wsNormAux s b) :
    c = ' ' ∨ c ∈ s := by
  induction s generalizing b with
  | nil => simp [wsNormAux] at hc
  | cons a t ih =>
    simp only [wsNormAux] at hc
    split at hc
    · split at hc
      · rcases ih hc with h | h
        · exact Or.inl h
        · exact Or.inr (List.mem_cons_of_mem a h)
      · rcases List.mem_cons.mp hc with rfl | hc
        · exact Or.inl rfl
        · rcases ih hc with h | h
          · exact Or.inl h
          · exact Or.inr (List.mem_cons_of_mem a h)
    · rcases List.mem_cons.mp hc with rfl | hc
      · exact Or.inr (List.mem_cons_self _ _)
      · rcases ih hc with h | h
        · exact Or.inl h
        · exact Or.inr (List.mem_cons_of_mem a h)

/-- Characters of the stem come from the name. -/
theorem mem_stemSuffix_fst {n : List Char} {c : Char} (hc : c ∈ (stemSuffix n).1) :
    c ∈ n := by
  simp only [stemSuffix] at hc
  split at hc
  · rw [List.mem_reverse] at hc
    exact List.mem_reverse.mp (List.Sublist.mem hc (List.drop_sublist _ _))
  · exact hc

/-- Characters of the suffix come from the name. -/
theorem mem_stemSuffix_snd {n : List Char} {c : Char} (hc : c ∈ (stemSuffix n).2) :
    c ∈ n := by
  simp only [stemSuffix] at hc
  split at hc
  · rw [List.mem_reverse] at hc
    exact List.mem_reverse.mp (List.Sublist.mem hc (List.take_sublist _ _))
  · simp at hc

/-- Characters of `stripChars cs s` come from `s`. -/
theorem mem_stripChars {cs s : List Char} {c : Char} (hc : c ∈ stripChars cs s) :
    c ∈ s := by
  unfold stripChars at hc
  rw [List.mem_reverse] at hc
  have h1 := List.Sublist.mem hc (List.dropWhile_sublist _)
  rw [List.mem_reverse] at h1
  exact List.Sublist.mem h1 (List.dropWhile_sublist _)

/-- Lowercasing never produces one of the removed special characters. -/
theorem specialChar_pyLowerChar {c : Char} (h : specialChar c = false) :
    specialChar (pyLowerChar c) = false := by
  unfold pyLowerChar
  rcases hf : upperLower.find? (fun p => p.1 == c) with _ | p
  · simpa only [hf] using h
  · simp only [hf]
    have hp : p ∈ upperLower := List.mem_of_find?_eq_some hf
    fin_cases hp <;> rfl

/-- Characters of a join come from the pieces or the separator. -/
theorem mem_joinWith {sep : List Char} {l : List (List Char)} {c : Char}
    (hc : c ∈ joinWith sep l) : (∃ q ∈ l, c ∈ q) ∨ c ∈ sep := by
  induction l with
  | nil => simp [joinWith] at hc
  | cons q qs ih =>
    cases qs with
    | nil =>
      have e : joinWith sep [q] = q := rfl
      rw [e] at hc
      exact Or.inl ⟨q, List.mem_cons_self _ _, hc⟩
    | cons q2 qs2 =>
      have e : joinWith sep (q :: q2 :: qs2) = q ++ sep ++ joinWith sep (q2 :: qs2) := rfl
      rw [e, List.append_assoc, List.mem_append, List.mem_append] at hc
      rcases hc with hc | hc | hc
      · exact Or.inl ⟨q, List.mem_cons_self _ _, hc⟩
      · exact Or.inr hc
      · rcases ih hc with ⟨r, hr, hcr⟩ | hc
        · exact Or.inl ⟨r, List.mem_cons_of_mem q hr, hcr⟩
        · exact Or.inr hc

/-- No character of a cleaned path component is one of `<>:"|?*`. -/
theorem cleanPart_special {p : List Char} {c : Char} (hc : c ∈ cleanPart p) :
    specialChar c = false := by
  simp only [cleanPart] at hc
  have hc2 := mem_stripChars hc
  have hfilter :
      ∀ d : Char,
        d ∈ wsNorm ((subHyphenUuid (subTrailHex32 (subTrailWsHex32 p))).filter
          (fun c => !specialChar c)) →
        specialChar d = false := by
    intro d hd
    rcases mem_wsNormAux hd with rfl | hd
    · decide
    · simpa using (List.mem_filter.mp hd).2
  rcases List.mem_append.mp hc2 with hc3 | hc3
  · exact hfilter c (mem_stemSuffix_fst (List.Sublist.mem hc3 (List.take_sublist _ _)))
  · obtain ⟨d, hd, rfl⟩ := List.mem_map.mp hc3
    exact specialChar_pyLowerChar (hfilter d (mem_stemSuffix_snd hd))

set_option maxHeartbeats 2000000 in
/-- C3 counterexample: `clean_filename` does not guarantee the absence of a
32-character lowercase-hex UUID substring (removing the special character `:`
can splice two shorter hex runs into a fresh 32-hex run), and a component's
stem is not always limited to 50 characters (when the stem is stripped away
entirely, `strip(' .-')` can expose an over-long extension as the new stem;
the extension is not preserved either). -/
theorem c3_counterexample :
    clean_filename "aaaaaaaaaaaaaaaa:aaaaaaaaaaaaaaaa" =
        "aaaaaaaaaaaaaaaaaaaaaaaaaaaaaaaa" ∧
    containsHex32 (clean_filename "aaaaaaaaaaaaaaaa:aaaaaaaaaaaaaaaa") = true ∧
    clean_filename "-.yyyyyyyyyyyyyyyyyyyyyyyyyyyyyyyyyyyyyyyyyyyyyyyyyyyyyyyyyyyy" =
        "yyyyyyyyyyyyyyyyyyyyyyyyyyyyyyyyyyyyyyyyyyyyyyyyyyyyyyyyyyyy" ∧
    (nameStem (clean_filename
        "-.yyyyyyyyyyyyyyyyyyyyyyyyyyyyyyyyyyyyyyyyyyyyyyyyyyyyyyyyyyyy")).length = 60 := by
  exact ⟨by decide, by decide, by decide, by decide⟩

/-- No character of the cleaned filename is one of `<>:"|?*`. -/
theorem cleanFilenameL_special (s : List Char) {c : Char} (hc : c ∈ cleanFilenameL s) :
    specialChar c = false := by
  unfold cleanFilenameL at hc
  by_cases h : (stripChars ['/'] (joinWith ['/'] (cleanParts s))).isEmpty = true
  · rw [if_pos h] at hc
    revert c
    decide
  · rw [if_neg h] at hc
    have hj := mem_stripChars hc
    rcases mem_joinWith hj with ⟨q, hq, hcq⟩ | hsep
    · simp only [cleanParts, List.mem_filter, List.mem_map] at hq
      obtain ⟨⟨p0, hp0, rfl⟩, _⟩ := hq
      exact cleanPart_special hcq
    · rcases List.mem_singleton.mp hsep with rfl
      decide

/-- The cleaned filename is never the empty string. -/
theorem cleanFilenameL_ne_nil (s : List Char) : cleanFilenameL s ≠ [] := by
  unfold cleanFilenameL
  by_cases h : (stripChars ['/'] (joinWith ['/'] (cleanParts s))).isEmpty = true
  · rw [if_pos h]
    decide
  · rw [if_neg h]
    intro he
    exact h (by rw [he]; rfl)

attribute [irreducible] cleanFilenameL

/-- C3 amended: for every input path string, the output of `clean_filename`
contains no character from `<>:"|?*` and is never empty (defaulting to
`untitled` when cleaning removes everything); the UUID-removal and stem
truncation steps are applied during cleaning, but the final result can
contain a fresh 32-hex substring created by character removal, and a
component's stem can exceed 50 characters (with the extension lost) when the
pre-extension name is stripped away entirely. -/
theorem c3_amended (s : String) :
    (∀ c ∈ (clean_filename s).data, specialChar c = false) ∧ clean_filename s ≠ "" := by
  constructor
  · intro c hc
    exact cleanFilenameL_special s.data hc
  · intro hemp
    exact cleanFilenameL_ne_nil s.data (congrArg String.data hemp)


/-- `pathLeB` is transitive. -/
theorem pathLeB_trans (a : List String) : ∀ b c, pathLeB a b = true → pathLeB b c = true →
    pathLeB a c = true := by
  induction a with
  | nil => intro b c _ _; rfl
  | cons x xs ih =>
    intro b c hab hbc
    cases b with
    | nil => simp [pathLeB] at hab
    | cons y ys =>
      cases c with
      | nil => simp [pathLeB] at hbc
      | cons z zs =>
        simp only [pathLeB] at hab hbc ⊢
        by_cases hxy : x = y
        · subst hxy
          rw [if_pos rfl] at hab
          by_cases hyz : x = z
          · subst hyz
            rw [if_pos rfl] at hbc
            rw [if_pos rfl]
            exact ih ys zs hab hbc
          · rw [if_neg hyz] at hbc
            rw [if_neg hyz]
            exact hbc
        · rw [if_neg hxy] at hab
          have hlt1 : x < y := of_decide_eq_true hab
          by_cases hyz : y = z
          · subst hyz
            rw [if_neg hxy]
            exact decide_eq_true hlt1
          · rw [if_neg hyz] at hbc
            have hlt2 : y < z := of_decide_eq_true hbc
            have hlt3 : x < z := lt_trans hlt1 hlt2
            have hxz : ¬ x = z := ne_of_lt hlt3
            rw [if_neg hxz]
            exact decide_eq_true hlt3

/-- `pathLeB` is total. -/
theorem pathLeB_total (a : List String) : ∀ b, (pathLeB a b || pathLeB b a) = true := by
  induction a with
  | nil => intro b; rfl
  | cons x xs ih =>
    intro b
    cases b with
    | nil => rfl
    | cons y ys =>
      simp only [pathLeB]
      by_cases hxy : x = y
      · subst hxy
        rw [if_pos rfl, if_pos rfl]
        exact ih ys
      · have hyx : ¬ y = x := fun h => hxy h.symm
        rw [if_neg hxy, if_neg hyx]
        rcases lt_or_gt_of_ne hxy with h | h
        · simp [h]
        · simp [h]

/-- C9: `find_html_files` returns a sorted list containing exactly the paths
of the recursive listing whose name matches `*.html` or `*.htm`, excluding
names that are `index.html` or `index.htm` case-insensitively; index pages
are never selected for theming. -/
theorem c9_find_html_files (tree : List (List String)) :
    (∀ p, p ∈ find_html_files tree ↔
      p ∈ tree ∧
        (strEndsWith ".html".data (pathName p).data = true ∨
          strEndsWith ".htm".data (pathName p).data = true) ∧
        ¬(pyLowerS (pathName p) = "index.html" ∨ pyLowerS (pathName p) = "index.htm")) ∧
    List.Pairwise (fun a b => pathLeB a b = true) (find_html_files tree) := by
  constructor
  · intro p
    unfold find_html_files
    rw [(List.mergeSort_perm _ pathLeB).mem_iff]
    simp only [List.mem_filter, List.mem_append, Bool.not_eq_true', Bool.or_eq_false_iff,
      beq_eq_false_iff_ne, ne_eq]
    tauto
  · exact @List.sorted_mergeSort _ pathLeB
      (fun a b c => pathLeB_trans a b c) (fun a b => pathLeB_total a b) _


/-- The `String` constructor recovers its data (cheap syntactic bridge). -/
theorem data_mk (l : List Char) : (String.mk l).data = l := rfl

/-- Digit characters parse back to their value. -/
theorem decVal_decDigit (n : Nat) (h : n < 10) : decVal (decDigit n) = n := by
  interval_cases n <;> rfl

/-- Appending one digit multiplies the parsed value by ten. -/
theorem parseDec_append (l : List Char) (d : Char) :
    parseDec (l ++ [d]) = parseDec l * 10 + decVal d := by
  unfold parseDec
  rw [List.foldl_append]
  rfl

/-- Decimal printing parses back to the number. -/
theorem parseDec_natToDecAux (f : Nat) : ∀ n, n < f → parseDec (natToDecAux f n) = n := by
  induction f with
  | zero => intro n h; omega
  | succ f ih =>
    intro n h
    by_cases h10 : n < 10
    · simp only [natToDecAux]
      rw [if_pos h10]
      show 0 * 10 + decVal (decDigit n) = n
      rw [decVal_decDigit n h10]
      omega
    · simp only [natToDecAux]
      rw [if_neg h10, parseDec_append, ih (n / 10) (by omega),
        decVal_decDigit (n % 10) (Nat.mod_lt n (by norm_num))]
      omega

/-- Decimal printing is injective. -/
theorem natToDec_injective : Function.Injective natToDec := by
  intro m n h
  have hm := parseDec_natToDecAux (m + 1) m (by omega)
  have hn := parseDec_natToDecAux (n + 1) n (by omega)
  rw [show natToDecAux (m + 1) m = natToDec m from rfl] at hm
  rw [show natToDecAux (n + 1) n = natToDec n from rfl] at hn
  rw [← hm, ← hn, h]

/-- Numbered candidate names are injective in the counter. -/
theorem numberedName_injective (base : List Char) :
    Function.Injective (numberedName base) := by
  intro j k h
  unfold numberedName at h
  have h2 := List.append_cancel_left h
  injection h2 with h2a h2b
  exact natToDec_injective h2b

/-- Some numbered candidate in `1, ..., used.length + 1` is unused. -/
theorem exists_fresh_numbered (base : List Char) (used : List (List Char)) :
    ∃ j, 1 ≤ j ∧ j < used.length + 2 ∧ numberedName base j ∉ used := by
  by_contra hall
  push_neg at hall
  have hinj : Function.Injective (fun i => numberedName base (i + 1)) := by
    intro a b h
    exact Nat.succ_injective (numberedName_injective base h)
  have hnd : ((List.range (used.length + 1)).map (fun i => numberedName base (i + 1))).Nodup :=
    List.Nodup.map hinj (List.nodup_range _)
  have hsubset :
      ∀ x ∈ (List.range (used.length + 1)).map (fun i => numberedName base (i + 1)),
        x ∈ used := by
    simp only [List.mem_map, List.mem_range]
    rintro x ⟨i, hi, rfl⟩
    exact hall (i + 1) (by omega) (by omega)
  have h1 :
      ((List.range (used.length + 1)).map (fun i => numberedName base (i + 1))).toFinset.card =
        used.length + 1 := by
    rw [List.toFinset_card_of_nodup hnd, List.length_map, List.length_range]
  have h2 :
      ((List.range (used.length + 1)).map
        (fun i => numberedName base (i + 1))).toFinset ⊆ used.toFinset := by
    intro x hx
    rw [List.mem_toFinset] at hx ⊢
    exact hsubset x hx
  have h3 := Finset.card_le_card h2
  have h4 : used.toFinset.card ≤ used.length := used.toFinset_card_le
  omega

/-- If a fresh candidate exists within the fuel window, the collision loop
returns an unused name. -/
theorem tryNames_not_mem (base : List Char) (used : List (List Char)) :
    ∀ f k, (∃ j, k ≤ j ∧ j < k + f ∧ numberedName base j ∉ used) →
      tryNames base used f k ∉ used := by
  intro f
  induction f with
  | zero =>
    rintro k ⟨j, hj1, hj2, _⟩
    omega
  | succ f ih =>
    rintro k ⟨j, hj1, hj2, hj3⟩
    by_cases hmem : numberedName base k ∈ used
    · simp only [tryNames]
      rw [if_pos hmem]
      apply ih
      have hjk : j ≠ k := fun he => hj3 (he ▸ hmem)
      exact ⟨j, by omega, by omega, hj3⟩
    · simp only [tryNames]
      rw [if_neg hmem]
      exact hmem

/-- The assigned clean name is never among the already used ones. -/
theorem uniquifyName_not_mem (base : List Char) (used : List (List Char)) :
    uniquifyName base used ∉ used := by
  unfold uniquifyName
  by_cases h : base ∈ used
  · rw [if_pos h]
    apply tryNames_not_mem
    obtain ⟨j, h1, h2, h3⟩ := exists_fresh_numbered base used
    exact ⟨j, h1, by omega, h3⟩
  · rw [if_neg h]
    exact h

/-- The collision loop always returns a numbered candidate. -/
theorem tryNames_eq_numbered (base : List Char) (used : List (List Char)) :
    ∀ f k, ∃ j, tryNames base used f k = numberedName base j := by
  intro f
  induction f with
  | zero => intro k; exact ⟨k, rfl⟩
  | succ f ih =>
    intro k
    by_cases hmem : numberedName base k ∈ used
    · simp only [tryNames]
      rw [if_pos hmem]
      exact ih (k + 1)
    · simp only [tryNames]
      rw [if_neg hmem]
      exact ⟨k, rfl⟩

/-- Assigned clean names are nonempty when the base is nonempty. -/
theorem uniquifyName_ne_nil (base : List Char) (used : List (List Char))
    (hb : base ≠ []) : uniquifyName base used ≠ [] := by
  unfold uniquifyName
  by_cases h : base ∈ used
  · rw [if_pos h]
    obtain ⟨j, hj⟩ := tryNames_eq_numbered base used (used.length + 1) 1
    rw [hj]
    unfold numberedName
    simp
  · rw [if_neg h]
    exact hb

/-- The default-filled base name is never empty. -/
theorem subpageBaseName_ne_nil (stem : List Char) : subpageBaseName stem ≠ [] := by
  unfold subpageBaseName
  by_cases h : (subpageCleanCore stem).isEmpty = true
  · rw [if_pos h]
    decide
  · rw [if_neg h]
    intro he
    exact h (by rw [he]; rfl)

/-- Invariant of the mapping loop: the produced clean names are pairwise
distinct, avoid all previously used names, are nonempty, and each target
filename is the clean name with `.html` appended. -/
theorem subpageMapAux_invariant (files : List (List String)) :
    ∀ used : List (List Char),
      ((subpageMapAux files used).map (fun e => e.2.2.data)).Nodup ∧
      (∀ nm ∈ (subpageMapAux files used).map (fun e => e.2.2.data), nm ∉ used) ∧
      (∀ e ∈ subpageMapAux files used, e.2.2.data ≠ [] ∧
        e.2.1 = String.mk (e.2.2.data ++ ".html".data)) := by
  induction files with
  | nil => intro used; refine ⟨List.nodup_nil, ?_, ?_⟩ <;> simp [subpageMapAux]
  | cons f fs ih =>
    intro used
    obtain ⟨ihn, ihu, ihe⟩ :=
      ih (uniquifyName (subpageBaseName (stemSuffix (pathName f).data).1) used :: used)
    refine ⟨?_, ?_, ?_⟩
    · simp only [subpageMapAux, List.map_cons, data_mk, List.nodup_cons]
      constructor
      · intro hmem
        exact (ihu _ hmem) (List.mem_cons_self _ _)
      · exact ihn
    · simp only [subpageMapAux, List.map_cons, data_mk, List.mem_cons]
      rintro nm (rfl | hnm)
      · exact uniquifyName_not_mem _ used
      · intro hmem
        exact (ihu nm hnm) (List.mem_cons_of_mem _ hmem)
    · simp only [subpageMapAux, List.mem_cons]
      rintro e (rfl | he)
      · refine ⟨?_, ?_⟩
        · simp only [data_mk]
          exact uniquifyName_ne_nil _ used (subpageBaseName_ne_nil _)
        · simp only [data_mk]
      · exact ihe e he

/-- C10: `create_subpage_mapping` assigns pairwise-distinct clean names
(appending ` 1`, ` 2`, ... on a collision), hence pairwise-distinct target
filenames `<clean name>.html`; no two entries share an output filename, and
every clean name is nonempty (defaulting to `subpage`). -/
theorem c10_create_subpage_mapping (files : List (List String)) :
    ((create_subpage_mapping files).map (fun e => e.2.2)).Nodup ∧
    ((create_subpage_mapping files).map (fun e => e.2.1)).Nodup ∧
    ∀ e ∈ create_subpage_mapping files, e.2.2 ≠ "" := by
  obtain ⟨hn, _, he⟩ := subpageMapAux_invariant files []
  have hmkinj : Function.Injective String.mk := by
    intro a b h
    injection h
  have hnames : ((create_subpage_mapping files).map (fun e => e.2.2)).Nodup := by
    have : ((create_subpage_mapping files).map (fun e => e.2.2)) =
        ((create_subpage_mapping files).map (fun e => e.2.2.data)).map String.mk := by
      rw [List.map_map]
      apply List.map_congr_left
      intro e _
      simp [Function.comp]
    rw [this]
    exact List.Nodup.map hmkinj hn
  refine ⟨hnames, ?_, ?_⟩
  · have : ((create_subpage_mapping files).map (fun e => e.2.1)) =
        ((create_subpage_mapping files).map (fun e => e.2.2.data)).map
          (fun nm => String.mk (nm ++ ".html".data)) := by
      rw [List.map_map]
      apply List.map_congr_left
      intro e hemem
      exact (he e hemem).2
    rw [this]
    refine List.Nodup.map ?_ hn
    intro a b hab
    exact List.append_cancel_right (hmkinj hab)
  · intro e hemem hcontra
    exact (he e hemem).1 (by rw [hcontra])


/-- With fuel at least `6 - level`, processing never runs out of fuel: the
`level < 5` guard stops the nested recursion first. -/
theorem processEntries_isSome (ok : FSEntry → Bool) (cleanup : Bool) (fuel level : Nat)
    (sib entries : List FSEntry) : 6 ≤ level + fuel →
    (processEntries ok cleanup fuel level sib entries).isSome = true := by
  induction fuel, level, sib, entries using processEntries.induct ok cleanup with
  | case1 fuel level sib =>
    intro h
    simp [processEntries]
  | case2 fuel level sib n rest ih =>
    intro h
    have h2 := ih h
    simp only [processEntries]
    rcases ho : processEntries ok cleanup fuel level sib rest with _ | r
    · rw [ho] at h2; simp at h2
    · rfl
  | case3 fuel level sib n es rest ih1 ih2 =>
    intro h
    have g1 := ih1 h
    have g2 := ih2 h
    simp only [processEntries]
    rcases ho1 : processEntries ok cleanup fuel level es es with _ | inner
    · rw [ho1] at g1; simp at g1
    · rcases ho2 : processEntries ok cleanup fuel level sib rest with _ | r
      · rw [ho2] at g2; simp at g2
      · simp [Option.bind]
  | case4 fuel level sib s c rest hre ih =>
    intro h
    have h2 := ih h
    rcases ho : processEntries ok cleanup fuel level sib rest with _ | r
    · rw [ho] at h2; simp at h2
    · cases fuel <;>
        · simp only [processEntries]
          rw [if_pos hre, ho]
          rfl
  | case5 level sib s c rest hre hok hlt =>
    intro h
    omega
  | case6 level sib s c rest hre hok hlt f ih1 ih2 =>
    intro h
    have g1 := ih1 (by omega)
    have g2 := ih2 (by omega)
    simp only [processEntries]
    rw [if_neg hre, if_pos hok, if_pos hlt]
    rcases ho1 : processEntries ok cleanup f (level + 1) c c with _ | inner
    · rw [ho1] at g1; simp at g1
    · rcases ho2 : processEntries ok cleanup (f + 1) level sib rest with _ | r
      · rw [ho2] at g2; simp at g2
      · simp [Option.bind]
  | case7 fuel level sib s c rest hre hok hge ih =>
    intro h
    have h2 := ih h
    rcases ho : processEntries ok cleanup fuel level sib rest with _ | r
    · rw [ho] at h2; simp at h2
    · cases fuel <;>
        · simp only [processEntries]
          rw [if_neg hre, if_pos hok, if_neg hge, ho]
          rfl
  | case8 fuel level sib s c rest hre hok ih =>
    intro h
    have h2 := ih h
    rcases ho : processEntries ok cleanup fuel level sib rest with _ | r
    · rw [ho] at h2; simp at h2
    · cases fuel <;>
        · simp only [processEntries]
          rw [if_neg hre, if_neg hok, ho]
          rfl

/-- C4 counterexample: (1) next to a plain FILE named `a` — the sibling list
contains no directory — `a.zip` is skipped, because `extract_dir.exists()`
is true for any entry kind, so the tree comes back unchanged and nothing is
extracted although the target directory does not exist; (2) a corrupt zip
(extraction oracle false) is kept even with `cleanup_zips` set, and only the
empty `mkdir`-created directory remains.  Both behaviors reproduced against
the Python code. -/
theorem c4_counterexample :
    extract_nested_archives (fun _ => true) true 6 0
        [FSEntry.file "a", FSEntry.zip "a" [FSEntry.file "x"]] =
      some [FSEntry.file "a", FSEntry.zip "a" [FSEntry.file "x"]] ∧
    ([FSEntry.file "a", FSEntry.zip "a" [FSEntry.file "x"]].all fun e =>
      match e with
      | FSEntry.dir _ _ => false
      | _ => true) = true ∧
    extract_nested_archives (fun _ => false) true 6 0
        [FSEntry.zip "a" [FSEntry.file "x"]] =
      some [FSEntry.zip "a" [FSEntry.file "x"], FSEntry.dir "a" []] := by
  refine ⟨?_, by decide, ?_⟩
  · simp [extract_nested_archives, processEntries, hasEntryNamed, entryName]
  · simp [extract_nested_archives, processEntries, hasEntryNamed, entryName]

/-- C4 amended: processing always terminates within fuel `6` from level `0`
(the `level < 5` guard bounds the nested recursion); a zip is skipped and
kept when ANY entry named after its stem exists among its siblings
(`extract_dir.exists()` — a plain file suffices, not only a directory); when
no such entry exists and extraction succeeds, the contents land in the
sibling stem directory, which is recursed into at `level + 1` only while
`level < 5` (at `level ≥ 5` the contents are inserted unprocessed), and the
zip is deleted exactly when `cleanup_zips` is set; when extraction fails
(`BadZipFile`/`Exception`) the zip is kept — even with `cleanup_zips` — and
only the empty extraction directory created before the failure remains. -/
theorem c4_amended (ok : FSEntry → Bool) (cleanup : Bool) :
    (∀ entries, (extract_nested_archives ok cleanup 6 0 entries).isSome = true) ∧
    (∀ fuel level sib s c rest, hasEntryNamed s sib = true →
      processEntries ok cleanup fuel level sib (FSEntry.zip s c :: rest) =
        (processEntries ok cleanup fuel level sib rest).map fun r =>
          FSEntry.zip s c :: r) ∧
    (∀ f level sib s c rest, hasEntryNamed s sib = false →
      ok (FSEntry.zip s c) = true → level < 5 →
      processEntries ok cleanup (f + 1) level sib (FSEntry.zip s c :: rest) =
        (processEntries ok cleanup f (level + 1) c c).bind fun inner =>
          (processEntries ok cleanup (f + 1) level sib rest).map fun r =>
            (if cleanup then [] else [FSEntry.zip s c]) ++ FSEntry.dir s inner :: r) ∧
    (∀ fuel level sib s c rest, hasEntryNamed s sib = false →
      ok (FSEntry.zip s c) = true → 5 ≤ level →
      processEntries ok cleanup fuel level sib (FSEntry.zip s c :: rest) =
        (processEntries ok cleanup fuel level sib rest).map fun r =>
          (if cleanup then [] else [FSEntry.zip s c]) ++ FSEntry.dir s c :: r) ∧
    (∀ fuel level sib s c rest, hasEntryNamed s sib = false →
      ok (FSEntry.zip s c) = false →
      processEntries ok cleanup fuel level sib (FSEntry.zip s c :: rest) =
        (processEntries ok cleanup fuel level sib rest).map fun r =>
          FSEntry.zip s c :: FSEntry.dir s [] :: r) := by
  refine ⟨?_, ?_, ?_, ?_, ?_⟩
  · intro entries
    exact processEntries_isSome ok cleanup 6 0 entries entries (by omega)
  · intro fuel level sib s c rest hre
    cases fuel <;> (simp only [processEntries]; rw [if_pos hre])
  · intro f level sib s c rest hre hok hlt
    have hb : ¬ hasEntryNamed s sib = true := by rw [hre]; exact Bool.false_ne_true
    simp only [processEntries]
    rw [if_neg hb, if_pos hok, if_pos hlt]
  · intro fuel level sib s c rest hre hok hge
    have hb : ¬ hasEntryNamed s sib = true := by rw [hre]; exact Bool.false_ne_true
    cases fuel
    all_goals
      simp only [processEntries]
      rw [if_neg hb, if_pos hok, if_neg (by omega : ¬ level < 5)]
  · intro fuel level sib s c rest hre hok
    have hb : ¬ hasEntryNamed s sib = true := by rw [hre]; exact Bool.false_ne_true
    have hbok : ¬ ok (FSEntry.zip s c) = true := by rw [hok]; exact Bool.false_ne_true
    cases fuel <;> (simp only [processEntries]; rw [if_neg hb, if_neg hbok])

/-- Witness for C4 amended at concrete trees: a doubly nested archive is
fully extracted within the fuel bound; a zip next to an existing entry named
`a` is skipped; extraction recurses at the next level below the guard; at
level 5 the contents are inserted without recursion; a failing zip is kept
with an empty extraction directory. -/
theorem c4_witness :
    (extract_nested_archives (fun _ => true) true 6 0
        [FSEntry.zip "a" [FSEntry.zip "b" [FSEntry.file "x"]]]).isSome = true ∧
    processEntries (fun _ => true) true 1 0 [FSEntry.dir "a" []]
        [FSEntry.zip "a" [FSEntry.file "x"]] =
      ((processEntries (fun _ => true) true 1 0 [FSEntry.dir "a" []] []).map
        (fun r => FSEntry.zip "a" [FSEntry.file "x"] :: r)) ∧
    processEntries (fun _ => true) true 6 0 [] [FSEntry.zip "a" [FSEntry.file "x"]] =
      ((processEntries (fun _ => true) true 5 1 [FSEntry.file "x"] [FSEntry.file "x"]).bind
        fun inner =>
          (processEntries (fun _ => true) true 6 0 [] []).map fun r =>
            (if true then [] else [FSEntry.zip "a" [FSEntry.file "x"]]) ++
              FSEntry.dir "a" inner :: r) ∧
    processEntries (fun _ => true) true 1 5 [] [FSEntry.zip "a" [FSEntry.file "x"]] =
      ((processEntries (fun _ => true) true 1 5 [] []).map fun r =>
        (if true then [] else [FSEntry.zip "a" [FSEntry.file "x"]]) ++
          FSEntry.dir "a" [FSEntry.file "x"] :: r) ∧
    processEntries (fun _ => false) true 1 0 [] [FSEntry.zip "a" [FSEntry.file "x"]] =
      ((processEntries (fun _ => false) true 1 0 [] []).map fun r =>
        FSEntry.zip "a" [FSEntry.file "x"] :: FSEntry.dir "a" [] :: r) := by
  obtain ⟨h1, h2, h3, h4, _⟩ := c4_amended (fun _ => true) true
  obtain ⟨_, _, _, _, g5⟩ := c4_amended (fun _ => false) true
  exact ⟨h1 _, h2 1 0 _ "a" [FSEntry.file "x"] [] rfl,
    h3 5 0 [] "a" [FSEntry.file "x"] [] rfl rfl (by omega),
    h4 1 5 [] "a" [FSEntry.file "x"] [] rfl rfl (by omega),
    g5 1 0 [] "a" [FSEntry.file "x"] [] rfl rfl⟩


/-- C7: during link rewriting, every href value that starts with `mailto:`
or `#`, and every href value starting with `http://` or `https://` that does
not contain `notion.so`, is returned character-for-character unchanged by
`fix_link` (so `re.sub` leaves the attribute as it was); only internal links
and notion.so links can be rewritten. -/
theorem c7_fix_link_external_unchanged (htmlDir : List String)
    (uuidMap fnameMap : List (String × List String)) (v : String)
    (h : startsL "mailto:".data v.data = true ∨ startsL "#".data v.data = true ∨
      ((startsL "http://".data v.data = true ∨ startsL "https://".data v.data = true) ∧
        containsSub v.data "notion.so".data = false)) :
    fix_link htmlDir uuidMap fnameMap v = "href=\"" ++ v ++ "\"" := by
  unfold fix_link
  have hb : (startsL "mailto:".data v.data || startsL "#".data v.data ||
      ((startsL "http://".data v.data || startsL "https://".data v.data) &&
        !containsSub v.data "notion.so".data)) = true := by
    rcases h with h | h | ⟨h1, h2⟩
    · simp [h]
    · simp [h]
    · rcases h1 with h1 | h1 <;> simp [h1, h2]
  rw [if_pos hb]

/-- Witness for C7 on the three skip shapes. -/
theorem c7_witness :
    fix_link [] [] [] "mailto:someone@example.com" =
      "href=\"mailto:someone@example.com\"" ∧
    fix_link [] [] [] "#section-2" = "href=\"#section-2\"" ∧
    fix_link [] [] [] "https://example.com/page" = "href=\"https://example.com/page\"" := by
  refine ⟨?_, ?_, ?_⟩
  · exact c7_fix_link_external_unchanged [] [] [] "mailto:someone@example.com"
      (Or.inl (by decide))
  · exact c7_fix_link_external_unchanged [] [] [] "#section-2"
      (Or.inr (Or.inl (by decide)))
  · exact c7_fix_link_external_unchanged [] [] [] "https://example.com/page"
      (Or.inr (Or.inr ⟨Or.inr (by decide), by decide⟩))

/-- C2: when an href is not skipped, contains a notion.so URL, and its
embedded UUID (leftmost 32-hex run, or hyphenated form with the hyphens
removed) is a key of the UUID map built from the known HTML files' names,
`fix_link` rewrites the attribute to the relative path from the current
file's directory to the target file joined with forward slashes; and
`fix_internal_links` returns `True` exactly when it changed (and rewrote)
the content. -/
theorem c2_fix_internal_links (files : List (List String)) (htmlDir : List String)
    (v : String) (u : List Char) (tgt : List String)
    (h1 : startsL "mailto:".data v.data = false)
    (h2 : startsL "#".data v.data = false)
    (h3 : containsSub v.data "notion.so".data = true)
    (h4 : uuidSearch v.data = some u)
    (h5 : lookupAssoc ⟨pyReplaceL u ['-'] []⟩ (buildUuidMap files []) = some tgt) :
    fix_link htmlDir (buildUuidMap files []) (buildFnameMap files []) v =
      "href=\"" ++ joinSlash (relpathComponents tgt htmlDir) ++ "\"" ∧
    ∀ content : String,
      (fix_internal_links htmlDir files content).2 = true ↔
        (fix_internal_links htmlDir files content).1 ≠ content := by
  constructor
  · unfold fix_link
    have hb : (startsL "mailto:".data v.data || startsL "#".data v.data ||
        ((startsL "http://".data v.data || startsL "https://".data v.data) &&
          !containsSub v.data "notion.so".data)) = false := by
      simp [h1, h2, h3]
    rw [if_neg (by rw [hb]; exact Bool.false_ne_true), if_pos h3, h4]
    simp only [h5]
  · intro content
    unfold fix_internal_links
    constructor
    · intro hd he
      have h6 := of_decide_eq_true hd
      have h7 := congrArg String.data he
      rw [data_mk] at h7
      exact h6 h7
    · intro hne
      apply decide_eq_true
      intro he
      apply hne
      apply String.ext
      rw [data_mk]
      exact he

/-- Witness for C2: a notion.so link whose hyphenated UUID matches the UUID
in a known file's name is rewritten to the relative path to that file. -/
theorem c2_witness :
    fix_link []
        (buildUuidMap [["Page deadbeefdeadbeefdeadbeefdeadbeef.html"]] [])
        (buildFnameMap [["Page deadbeefdeadbeefdeadbeefdeadbeef.html"]] [])
        "https://www.notion.so/Page-deadbeef-dead-beef-dead-beefdeadbeef" =
      "href=\"" ++
        joinSlash (relpathComponents ["Page deadbeefdeadbeefdeadbeefdeadbeef.html"] []) ++
        "\"" ∧
    ((fix_internal_links [] [["Page deadbeefdeadbeefdeadbeefdeadbeef.html"]]
        "plain text").2 = true ↔
      (fix_internal_links [] [["Page deadbeefdeadbeefdeadbeefdeadbeef.html"]]
        "plain text").1 ≠ "plain text") := by
  have h := c2_fix_internal_links [["Page deadbeefdeadbeefdeadbeefdeadbeef.html"]] []
    "https://www.notion.so/Page-deadbeef-dead-beef-dead-beefdeadbeef"
    "deadbeef-dead-beef-dead-beefdeadbeef".data
    ["Page deadbeefdeadbeefdeadbeefdeadbeef.html"]
    (by decide) (by decide) (by decide) (by decide) (by decide)
  exact ⟨h.1, h.2 "plain text"⟩


/-- The last element of an appended singleton. -/
theorem getLastD_append_singleton (l : List String) (x d : String) :
    (l ++ [x]).getLastD d = x := by
  induction l generalizing d with
  | nil => rfl
  | cons a t ih =>
    rw [List.cons_append, List.getLastD_cons]
    exact ih a

/-- The name of the converted PNG: same stem, `.png` extension. -/
theorem pathName_pngOf (f : List String) :
    pathName (pngOf f) = ⟨(stemSuffix (pathName f).data).1 ++ ".png".data⟩ := by
  unfold pathName pngOf
  exact getLastD_append_singleton _ _ _

/-- A name ending in `.png` carries none of the four HEIC extensions. -/
theorem heic_suffix_png_false (stem : List Char) :
    isHeicSuffixName (stem ++ ".png".data) = false := by
  have h : (stem ++ ".png".data).reverse = 'g' :: 'n' :: 'p' :: '.' :: stem.reverse := by
    rw [List.reverse_append]
    rfl
  simp [isHeicSuffixName, strEndsWith, h, startsL]

/-- A HEIC-named file is never a converted PNG. -/
theorem heicFile_ne_pngOf (f g : List String)
    (hf : isHeicSuffixName (pathName f).data = true) : ¬ f = pngOf g := by
  intro he
  rw [he, pathName_pngOf, data_mk, heic_suffix_png_false] at hf
  exact Bool.false_ne_true hf

/-- Every HEIC-named file of the tree is found by the glob patterns. -/
theorem mem_heicFound {tree : List (List String)} {f : List String} (hf : f ∈ tree)
    (hh : isHeicSuffixName (pathName f).data = true) : f ∈ heicFound tree := by
  unfold isHeicSuffixName at hh
  simp only [Bool.or_eq_true] at hh
  simp only [heicFound, List.mem_append, List.mem_filter]
  tauto

/-- Everything the glob patterns find is HEIC-named. -/
theorem heicFound_heic {tree : List (List String)} {g : List String}
    (hg : g ∈ heicFound tree) : isHeicSuffixName (pathName g).data = true := by
  simp only [heicFound, List.mem_append, List.mem_filter] at hg
  unfold isHeicSuffixName
  simp only [Bool.or_eq_true]
  tauto

/-- The conversion loop only appends to the conversion list. -/
theorem convertFold_convs_mono (ok : List String → Bool) :
    ∀ (fs tree : List (List String)) (convs : List (List String × List String))
      (e : List String × List String), e ∈ convs → e ∈ (convertFold ok fs tree convs).2 := by
  intro fs
  induction fs with
  | nil => intro tree convs e he; exact he
  | cons g fs ih =>
    intro tree convs e he
    simp only [convertFold]
    by_cases hok : ok g = true
    · rw [if_pos hok]
      exact ih _ _ e (List.mem_append_left _ he)
    · rw [if_neg hok]
      exact ih _ _ e he

/-- Counting in a singleton list of a different element. -/
theorem count_singleton_ne {α : Type} [BEq α] [LawfulBEq α] {a b : α} (h : b ≠ a) :
    List.count a [b] = 0 := by
  rw [List.count_cons, List.count_nil]
  simp [beq_iff_eq, h]

/-- Once a HEIC file is gone and its PNG present, the rest of the conversion
loop keeps it gone and the PNG present. -/
theorem convertFold_preserve (ok : List String → Bool) :
    ∀ (fs tree : List (List String)) (convs : List (List String × List String))
      (f png : List String),
      (∀ g ∈ fs, isHeicSuffixName (pathName g).data = true) →
      isHeicSuffixName (pathName f).data = true →
      isHeicSuffixName (pathName png).data = false →
      List.count f tree = 0 → png ∈ tree →
      List.count f (convertFold ok fs tree convs).1 = 0 ∧
        png ∈ (convertFold ok fs tree convs).1 := by
  intro fs
  induction fs with
  | nil => intro tree convs f png _ _ _ hc hp; exact ⟨hc, hp⟩
  | cons g fs ih =>
    intro tree convs f png hfs hf hpng hc hp
    have hgheic := hfs g (List.mem_cons_self _ _)
    simp only [convertFold]
    by_cases hok : ok g = true
    · rw [if_pos hok]
      have hfg : f ≠ pngOf g := heicFile_ne_pngOf f g hf
      have hcount : List.count f (tree.erase g ++ [pngOf g]) = 0 := by
        rw [List.count_append]
        have h1 : List.count f (tree.erase g) ≤ List.count f tree :=
          (List.erase_sublist g tree).count_le f
        have h2 : List.count f [pngOf g] = 0 :=
          count_singleton_ne (fun h => hfg h.symm)
        omega
      have hpg : png ≠ g := by
        intro he
        have h3 := hgheic
        rw [← he, hpng] at h3
        exact Bool.false_ne_true h3
      have hpmem : png ∈ tree.erase g ++ [pngOf g] :=
        List.mem_append_left _ ((List.mem_erase_of_ne hpg).mpr hp)
      exact ih _ _ f png (fun x hx => hfs x (List.mem_cons_of_mem _ hx)) hf hpng hcount hpmem
    · rw [if_neg hok]
      exact ih _ _ f png (fun x hx => hfs x (List.mem_cons_of_mem _ hx)) hf hpng hc hp

/-- A successfully converted HEIC file ends up deleted, with its PNG present
and the conversion recorded. -/
theorem convertFold_main (ok : List String → Bool) :
    ∀ (fs tree : List (List String)) (convs : List (List String × List String))
      (f : List String),
      f ∈ fs → (∀ g ∈ fs, isHeicSuffixName (pathName g).data = true) → ok f = true →
      List.count f tree = 1 →
      List.count f (convertFold ok fs tree convs).1 = 0 ∧
        pngOf f ∈ (convertFold ok fs tree convs).1 ∧
        (f, pngOf f) ∈ (convertFold ok fs tree convs).2 := by
  intro fs
  induction fs with
  | nil => intro tree convs f hf; exact absurd hf (List.not_mem_nil f)
  | cons g fs ih =>
    intro tree convs f hf hfs hok hc
    have hfheic := hfs g (List.mem_cons_self _ _)
    by_cases hfg : f = g
    · subst hfg
      simp only [convertFold]
      rw [if_pos hok]
      have hne : f ≠ pngOf f := heicFile_ne_pngOf f f (hfs f (List.mem_cons_self _ _))
      have h0 : List.count f (tree.erase f ++ [pngOf f]) = 0 := by
        rw [List.count_append, List.count_erase_self,
          count_singleton_ne (fun h => hne h.symm)]
        omega
      have hpmem : pngOf f ∈ tree.erase f ++ [pngOf f] :=
        List.mem_append_right _ (List.mem_singleton_self _)
      have hpngname : isHeicSuffixName (pathName (pngOf f)).data = false := by
        rw [pathName_pngOf, data_mk]
        exact heic_suffix_png_false _
      obtain ⟨hc2, hp2⟩ := convertFold_preserve ok fs _ _ f (pngOf f)
        (fun x hx => hfs x (List.mem_cons_of_mem _ hx))
        (hfs f (List.mem_cons_self _ _)) hpngname h0 hpmem
      refine ⟨hc2, hp2, ?_⟩
      exact convertFold_convs_mono ok fs _ _ _
        (List.mem_append_right _ (List.mem_singleton_self _))
    · have hf' : f ∈ fs := (List.mem_cons.mp hf).resolve_left hfg
      simp only [convertFold]
      by_cases hok2 : ok g = true
      · rw [if_pos hok2]
        apply ih _ _ f hf' (fun x hx => hfs x (List.mem_cons_of_mem _ hx)) hok
        have hnepng : f ≠ pngOf g := heicFile_ne_pngOf f g (hfs f hf)
        rw [List.count_append, List.count_erase_of_ne hfg,
          count_singleton_ne (fun h => hnepng h.symm)]
        omega
      · rw [if_neg hok2]
        exact ih _ _ f hf' (fun x hx => hfs x (List.mem_cons_of_mem _ hx)) hok hc


/-- Counting a member of a duplicate-free list. -/
theorem count_eq_one_nodup {α : Type} [BEq α] [LawfulBEq α] {a : α} {l : List α}
    (hn : l.Nodup) (hm : a ∈ l) : List.count a l = 1 := by
  induction l with
  | nil => cases hm
  | cons b t ih =>
    rw [List.count_cons]
    rcases List.mem_cons.mp hm with rfl | hm2
    · rw [List.count_eq_zero.mpr (List.nodup_cons.mp hn).1]
      simp
    · have hne : b ≠ a := by
        intro he
        subst he
        exact (List.nodup_cons.mp hn).1 hm2
      rw [ih (List.nodup_cons.mp hn).2 hm2]
      simp [beq_iff_eq, hne]

/-- A pattern fold where no pattern occurs leaves the content unchanged. -/
theorem updateFold_absent (png : List Char) :
    ∀ (pats : List String) (c : List Char),
      (∀ pat ∈ pats, containsSub c pat.data = false) →
      pats.foldl
        (fun c pat => if containsSub c pat.data then pyReplaceL c pat.data png else c) c = c := by
  intro pats
  induction pats with
  | nil => intro c _; rfl
  | cons q qs ih =>
    intro c h
    rw [List.foldl_cons]
    have hq : containsSub c q.data = false := h q (List.mem_cons_self _ _)
    rw [if_neg (by rw [hq]; exact Bool.false_ne_true)]
    exact ih c (fun pat hp => h pat (List.mem_cons_of_mem _ hp))

/-- C1 counterexample: a relative-path reference to a converted HEIC file in
a subdirectory is *not* rewritten to the bare PNG filename.  The plain-name
pattern `photo.heic` is replaced first, so the reference becomes
`sub/photo.png` (keeping its directory prefix) instead of the `photo.png`
the claim demands. -/
theorem c1_counterexample :
    update_heic_references_in_html [] [(["sub", "photo.heic"], ["sub", "photo.png"])]
        "src=\"sub/photo.heic\"" = "src=\"sub/photo.png\"" ∧
    update_heic_references_in_html [] [(["sub", "photo.heic"], ["sub", "photo.png"])]
        "src=\"sub/photo.heic\"" ≠ "src=\"photo.png\"" := by
  exact ⟨by decide, by decide⟩

/-- C1 amended: every file with extension `.heic`/`.HEIC`/`.heif`/`.HEIF`
found recursively in the extraction directory whose conversion succeeds gets
a PNG with the same stem in the same directory (conversion to RGB happens
inside the PIL oracle), the original HEIC file is deleted, and the
conversion is recorded; `update_heic_references_in_html` then replaces, in
each HTML file, every occurrence of each reference pattern by the PNG base
filename — so a same-directory (plain-name) reference becomes exactly the
PNG filename, while a relative-path reference keeps its directory prefix
(ending in the PNG filename) rather than being replaced whole. -/
theorem c1_amended (ok : List String → Bool) (tree : List (List String))
    (f htmlDir h p : List String) (content n hU png : String)
    (ha1 : tree.Nodup) (ha2 : f ∈ tree)
    (ha3 : isHeicSuffixName (pathName f).data = true) (ha4 : ok f = true)
    (hb1 : heicPatterns htmlDir h = [n, n, n, n, n, n, n, n, hU, hU])
    (hb2 : pathName p = png)
    (hb3 : containsSub content.data n.data = true)
    (hb4 : containsSub (pyReplaceL content.data n.data png.data) n.data = false)
    (hb6 : containsSub (pyReplaceL content.data n.data png.data) hU.data = false) :
    (pngOf f ∈ (convert_all_heic_files ok tree).1 ∧
      f ∉ (convert_all_heic_files ok tree).1 ∧
      (f, pngOf f) ∈ (convert_all_heic_files ok tree).2) ∧
    update_heic_references_in_html htmlDir [(h, p)] content =
      ⟨joinWith png.data (splitOnL content.data n.data)⟩ := by
  constructor
  · have hcount : List.count f tree = 1 := count_eq_one_nodup ha1 ha2
    have hmem : f ∈ heicFound tree := mem_heicFound ha2 ha3
    have hall : ∀ g ∈ heicFound tree, isHeicSuffixName (pathName g).data = true :=
      fun g hg => heicFound_heic hg
    obtain ⟨hc, hp2, hconv⟩ :=
      convertFold_main ok (heicFound tree) tree [] f hmem hall ha4 hcount
    exact ⟨hp2, List.count_eq_zero.mp hc, hconv⟩
  · have key : List.foldl (updateOneConversion htmlDir) content.data [(h, p)] =
        joinWith png.data (splitOnL content.data n.data) := by
      rw [List.foldl_cons, List.foldl_nil]
      unfold updateOneConversion
      dsimp only
      rw [hb1, hb2]
      have habs : ∀ pat ∈ ([n, n, n, n, n, n, n, hU, hU] : List String),
          containsSub (pyReplaceL content.data n.data png.data) pat.data = false := by
        intro pat hp
        simp only [List.mem_cons, List.not_mem_nil, or_false] at hp
        rcases hp with rfl | rfl | rfl | rfl | rfl | rfl | rfl | rfl | rfl
        all_goals first | exact hb4 | exact hb6
      rw [List.foldl_cons, if_pos hb3,
        updateFold_absent png.data [n, n, n, n, n, n, n, hU, hU] _ habs,
        pyReplaceL_eq_joinWith]
    unfold update_heic_references_in_html
    exact congrArg String.mk key

/-- Witness for C1: converting `photo.heic` (single file at the root) yields
`photo.png`, deletes the original, records the conversion, and the HTML
update turns `src="photo.heic"` into `src="photo.png"` exactly. -/
theorem c1_witness :
    (pngOf ["photo.heic"] ∈ (convert_all_heic_files (fun _ => true) [["photo.heic"]]).1 ∧
      ["photo.heic"] ∉ (convert_all_heic_files (fun _ => true) [["photo.heic"]]).1 ∧
      (["photo.heic"], pngOf ["photo.heic"]) ∈
        (convert_all_heic_files (fun _ => true) [["photo.heic"]]).2) ∧
    update_heic_references_in_html [] [(["photo.heic"], ["photo.png"])]
        "src=\"photo.heic\"" =
      ⟨joinWith "photo.png".data (splitOnL "src=\"photo.heic\"".data "photo.heic".data)⟩ :=
  c1_amended (fun _ => true) [["photo.heic"]] ["photo.heic"] [] ["photo.heic"]
    ["photo.png"] "src=\"photo.heic\"" "photo.heic" "photo.HEIC" "photo.png"
    (by decide) (by decide) (by decide) (by decide) (by decide) (by decide) (by decide)
    (by decide) (by decide)

/-- Fuel irrelevance for the substitution scanner once the fuel covers the
input length, provided every match strictly shrinks the input. -/
theorem scanRw_congr_fuel (try_ : List Char → Option (List Char × List Char))
    (hs : ∀ s o r, try_ s = some (o, r) → r.length < s.length) :
    ∀ f g s, s.length ≤ f → s.length ≤ g → scanRw try_ f s = scanRw try_ g s := by
  intro f
  induction f with
  | zero =>
    intro g s hf _
    have hnil : s = [] := List.eq_nil_of_length_eq_zero (Nat.le_zero.mp hf)
    subst hnil
    cases g <;> rfl
  | succ f ih =>
    intro g s hf hg
    cases s with
    | nil => cases g <;> rfl
    | cons c t =>
      cases g with
      | zero => exact absurd hg (by simp)
      | succ g' =>
        cases htry : try_ (c :: t) with
        | some pr =>
          obtain ⟨o, r⟩ := pr
          have hr := hs _ _ _ htry
          simp only [List.length_cons] at hf hg hr
          simp only [scanRw, htry]
          exact congrArg (o ++ ·) (ih g' r (by omega) (by omega))
        | none =>
          simp only [List.length_cons] at hf hg
          simp only [scanRw, htry]
          exact congrArg (c :: ·) (ih g' t (by omega) (by omega))

/-- A prefix in which no match starts is copied verbatim by the scanner. -/
theorem scanRw_append_none (try_ : List Char → Option (List Char × List Char)) :
    ∀ (p s : List Char) (f : Nat),
      (∀ i, i < p.length → try_ (List.drop i (p ++ s)) = none) →
      scanRw try_ (p.length + f) (p ++ s) = p ++ scanRw try_ f s := by
  intro p
  induction p with
  | nil => intro s f _; simp
  | cons c pt ih =>
    intro s f h
    have h0 : try_ (c :: (pt ++ s)) = none := by
      have := h 0 (by simp)
      simpa using this
    have hlen : (c :: pt).length + f = (pt.length + f) + 1 := by
      simp only [List.length_cons]; omega
    rw [hlen, List.cons_append]
    simp only [scanRw, h0]
    rw [ih s f (fun i hi => by
      have := h (i + 1) (by simp only [List.length_cons]; omega)
      simpa [List.cons_append] using this)]
    rfl

/-- One leftmost match: the scanner copies the clean prefix, emits the
replacement, and continues after the matched text. -/
theorem runScan_match (try_ : List Char → Option (List Char × List Char))
    (hs : ∀ s o r, try_ s = some (o, r) → r.length < s.length)
    (p m o q : List Char) (hm : try_ (m ++ q) = some (o, q)) (hne : m ≠ [])
    (hp : ∀ i, i < p.length → try_ (List.drop i (p ++ (m ++ q))) = none) :
    runScan try_ (p ++ (m ++ q)) = p ++ (o ++ runScan try_ q) := by
  unfold runScan
  rw [List.length_append]
  rw [scanRw_append_none try_ p (m ++ q) (m ++ q).length hp]
  congr 1
  cases m with
  | nil => exact absurd rfl hne
  | cons mc mt =>
    rw [List.cons_append] at hm ⊢
    simp only [List.length_cons]
    show scanRw try_ ((mt ++ q).length + 1) (mc :: (mt ++ q)) = o ++ runScan try_ q
    simp only [scanRw, hm]
    refine congrArg (o ++ ·) ?_
    exact scanRw_congr_fuel try_ hs _ _ q
      (by rw [List.length_append]; omega) (le_refl _)

/-- Every `tableTry` match strictly shrinks the input. -/
theorem tableTry_shrink :
    ∀ s o r, tableTry s = some (o, r) → r.length < s.length := by
  intro s o r h
  unfold tableTry at h
  cases hopen : afterOpenTag "<table".data s with
  | none => rw [hopen] at h; dsimp only at h; exact Option.noConfusion h
  | some rest =>
    rw [hopen] at h
    dsimp only at h
    cases hfind : findSubCI "</table>".data rest with
    | none => rw [hfind] at h; dsimp only at h; exact Option.noConfusion h
    | some j =>
      rw [hfind] at h
      dsimp only at h
      injection h with h'
      injection h' with h1 h2
      have hrest : rest.length < s.length := by
        unfold afterOpenTag at hopen
        by_cases hst : startsLCI "<table".data s = true
        · rw [if_pos hst] at hopen
          cases hdrop : (s.drop "<table".data.length).drop
              ((s.drop "<table".data.length).takeWhile (fun c => !(c == '>'))).length with
          | nil => rw [hdrop] at hopen; dsimp only at hopen; exact Option.noConfusion hopen
          | cons c rest' =>
            rw [hdrop] at hopen
            dsimp only at hopen
            by_cases hgt : (c == '>') = true
            · rw [if_pos hgt] at hopen
              injection hopen with hopen
              subst hopen
              have hlen := congrArg List.length hdrop
              rw [List.length_drop, List.length_drop] at hlen
              simp only [List.length_cons] at hlen
              omega
            · rw [if_neg hgt] at hopen
              exact Option.noConfusion hopen
        · rw [if_neg hst] at hopen
          exact Option.noConfusion hopen
      subst h2
      calc (rest.drop (j + 8)).length ≤ rest.length := by
            rw [List.length_drop]; omega
        _ < s.length := hrest

/-- A pattern of already-lowercase characters matches itself (case-insensitively)
at the head of any extension. -/
theorem startsLCI_append_self (pat : List Char) (h : ∀ c ∈ pat, pyLowerChar c = c) :
    ∀ r : List Char, startsLCI pat (pat ++ r) = true := by
  induction pat with
  | nil => intro r; rfl
  | cons p pt ih =>
    intro r
    simp only [List.cons_append, startsLCI]
    rw [h p (List.mem_cons_self _ _)]
    simp only [beq_self_eq_true, Bool.true_and]
    exact ih (fun c hc => h c (List.mem_cons_of_mem _ hc)) r

/-- `takeWhile` over a run that satisfies the predicate, stopped by `c`. -/
theorem takeWhile_append_stop (pr : Char → Bool) (c : Char) (hc : pr c = false) :
    ∀ (l r : List Char), l.all pr = true → List.takeWhile pr (l ++ c :: r) = l := by
  intro l
  induction l with
  | nil => intro r _; simp [List.takeWhile_cons, hc]
  | cons a t ih =>
    intro r h
    simp only [List.all_cons, Bool.and_eq_true] at h
    simp only [List.cons_append, List.takeWhile_cons, h.1]
    rw [ih r h.2]
    simp

/-- `<tag[^>]*>` consumes exactly the literal tag, the attribute run and the
closing `>`. -/
theorem afterOpenTag_eq (tag attrs Y : List Char)
    (htag : ∀ c ∈ tag, pyLowerChar c = c)
    (h2 : attrs.all (fun c => !(c == '>')) = true) :
    afterOpenTag tag (tag ++ (attrs ++ '>' :: Y)) = some Y := by
  unfold afterOpenTag
  rw [if_pos (startsLCI_append_self tag htag _)]
  rw [List.drop_left tag (attrs ++ '>' :: Y)]
  rw [takeWhile_append_stop _ '>' rfl attrs Y h2]
  rw [List.drop_left attrs ('>' :: Y)]
  rfl

/-- `tableTry` on a well-placed table block yields the grid replacement and
the text after `</table>`. -/
theorem tableTry_eq (attrs inner q : List Char)
    (h2 : attrs.all (fun c => !(c == '>')) = true)
    (h3 : findSubCI "</table>".data (inner ++ ("</table>".data ++ q)) = some inner.length) :
    tableTry ("<table".data ++ (attrs ++ '>' :: (inner ++ ("</table>".data ++ q)))) =
      some (gridHtml inner, q) := by
  unfold tableTry
  rw [afterOpenTag_eq "<table".data attrs _ (by decide) h2]
  dsimp only
  rw [h3]
  dsimp only
  rw [List.take_left]
  rw [List.drop_append 8]
  rfl

/-- C6: `convert_table_layout_to_grid` replaces a `<table ...>...</table>`
block (leftmost match: no table match starts in the prefix, the attribute
run has no `>`, the inner content ends at the nearest `</table>`) by a div
whose class is `image-grid` extended with ` two-column` for exactly 2 `<td>`
cells, ` three-column` for exactly 3, ` four-column` for 4 or more and
nothing for fewer than 2; every extracted cell containing `<img>` is wrapped
in an `image-with-caption` div with an empty caption div, every other cell
in a plain div; scanning continues after the block. -/
theorem c6_convert_table_layout_to_grid (p attrs inner q : List Char)
    (h1 : ∀ i, i < p.length →
      tableTry (List.drop i
        (p ++ ("<table".data ++ (attrs ++ '>' :: (inner ++ ("</table>".data ++ q)))))) = none)
    (h2 : attrs.all (fun c => !(c == '>')) = true)
    (h3 : findSubCI "</table>".data (inner ++ ("</table>".data ++ q)) = some inner.length) :
    (convert_table_layout_to_grid
        ⟨p ++ ("<table".data ++ (attrs ++ '>' :: (inner ++ ("</table>".data ++ q))))⟩).data =
      p ++ (("<div class=\"".data ++ gridClass (tdCount inner) ++ "\">".data ++
          ((tdCells inner).map cellHtml).flatten ++ "</div>".data) ++
        (convert_table_layout_to_grid ⟨q⟩).data) ∧
    (tdCount inner = 2 → gridClass (tdCount inner) = "image-grid two-column".data) ∧
    (tdCount inner = 3 → gridClass (tdCount inner) = "image-grid three-column".data) ∧
    (4 ≤ tdCount inner → gridClass (tdCount inner) = "image-grid four-column".data) ∧
    (tdCount inner < 2 → gridClass (tdCount inner) = "image-grid".data) ∧
    (∀ cell ∈ tdCells inner,
      (containsSub cell "<img".data = true →
        cellHtml cell = "<div class=\"image-with-caption\">".data ++ cell ++
          "<div class=\"caption\"></div></div>".data) ∧
      (containsSub cell "<img".data = false →
        cellHtml cell = "<div>".data ++ cell ++ "</div>".data)) := by
  have hassoc : ("<table".data ++ (attrs ++ '>' :: (inner ++ "</table>".data))) ++ q =
      "<table".data ++ (attrs ++ '>' :: (inner ++ ("</table>".data ++ q))) := by
    simp [List.append_assoc]
  have hm : tableTry (("<table".data ++ (attrs ++ '>' :: (inner ++ "</table>".data))) ++ q) =
      some (gridHtml inner, q) := by
    rw [hassoc]; exact tableTry_eq attrs inner q h2 h3
  have hne : ("<table".data ++ (attrs ++ '>' :: (inner ++ "</table>".data))) ≠ [] := by
    intro h
    rw [show ("<table".data : List Char) = '<' :: "table".data from rfl,
      List.cons_append] at h
    exact List.noConfusion h
  have hp : ∀ i, i < p.length →
      tableTry (List.drop i
        (p ++ (("<table".data ++ (attrs ++ '>' :: (inner ++ "</table>".data))) ++ q))) = none := by
    intro i hi
    rw [hassoc]
    exact h1 i hi
  have hmain := runScan_match tableTry tableTry_shrink p
    ("<table".data ++ (attrs ++ '>' :: (inner ++ "</table>".data))) (gridHtml inner) q hm hne hp
  rw [hassoc] at hmain
  refine ⟨?_, ?_, ?_, ?_, ?_, ?_⟩
  · unfold convert_table_layout_to_grid
    simp only [data_mk]
    rw [hmain]
    rfl
  · intro h; rw [h]; decide
  · intro h; rw [h]; decide
  · intro h
    unfold gridClass
    rw [if_neg (by omega), if_neg (by omega), if_pos h]
    decide
  · intro h
    unfold gridClass
    rw [if_neg (by omega), if_neg (by omega), if_neg (by omega)]
    exact List.append_nil _
  · intro cell _
    constructor
    · intro h; unfold cellHtml; rw [if_pos h]
    · intro h
      unfold cellHtml
      rw [if_neg (by rw [h]; exact Bool.false_ne_true)]

/-- Witness for C6 on `x<table><td><img></td><td>t</td></table>z`. -/
theorem c6_witness :
    (convert_table_layout_to_grid
        ⟨"x".data ++ ("<table".data ++ ([] ++ '>' :: ("<td><img></td><td>t</td>".data ++
          ("</table>".data ++ "z".data))))⟩).data =
      "x".data ++ (("<div class=\"".data ++
          gridClass (tdCount "<td><img></td><td>t</td>".data) ++ "\">".data ++
          ((tdCells "<td><img></td><td>t</td>".data).map cellHtml).flatten ++
          "</div>".data) ++
        (convert_table_layout_to_grid ⟨"z".data⟩).data) :=
  (c6_convert_table_layout_to_grid "x".data [] "<td><img></td><td>t</td>".data "z".data
    (by decide) (by decide) (by decide)).1

/-- A literal pattern matches itself at the head of any extension. -/
theorem startsL_refl_append (pat : List Char) :
    ∀ r : List Char, startsL pat (pat ++ r) = true := by
  induction pat with
  | nil => intro r; rfl
  | cons p pt ih =>
    intro r
    simp only [List.cons_append, startsL, beq_self_eq_true, Bool.true_and]
    exact ih r

/-- The scanner leaves input without any match unchanged. -/
theorem scanRw_none (try_ : List Char → Option (List Char × List Char)) :
    ∀ (f : Nat) (s : List Char),
      (∀ i, i < s.length → try_ (s.drop i) = none) → scanRw try_ f s = s := by
  intro f
  induction f with
  | zero => intro s _; cases s <;> rfl
  | succ f ih =>
    intro s h
    cases s with
    | nil => rfl
    | cons c t =>
      have h0 : try_ (c :: t) = none := by
        have := h 0 (by simp)
        simpa using this
      simp only [scanRw, h0]
      rw [ih t (fun i hi => by
        have := h (i + 1) (by simp only [List.length_cons]; omega)
        simpa using this)]

/-- `imgTagTry` on a well-formed `<img ...>` tag whose attribute run carries
the src. -/
theorem imgTagTry_eq (oldSrc comment attrs q : List Char)
    (h2 : attrs.all (fun c => !(c == '>')) = true)
    (h3 : containsSub attrs ("src=\"".data ++ oldSrc ++ "\"".data) = true) :
    imgTagTry oldSrc comment ("<img".data ++ (attrs ++ '>' :: q)) = some (comment, q) := by
  unfold imgTagTry
  rw [if_pos (startsL_refl_append "<img".data _)]
  rw [show ("<img".data ++ (attrs ++ '>' :: q)).drop 4 = attrs ++ '>' :: q from rfl]
  rw [takeWhile_append_stop _ '>' rfl attrs q h2]
  rw [if_pos ⟨h3, by simp only [List.length_append, List.length_cons]; omega⟩]
  rw [List.drop_append 1]
  rfl

/-- Every `imgTagTry` match strictly shrinks the input. -/
theorem imgTagTry_shrink (oldSrc comment : List Char) :
    ∀ s o r, imgTagTry oldSrc comment s = some (o, r) → r.length < s.length := by
  intro s o r h
  unfold imgTagTry at h
  by_cases h1 : startsL "<img".data s = true
  · rw [if_pos h1] at h
    by_cases h2 : containsSub ((s.drop 4).takeWhile (fun c => !(c == '>')))
          ("src=\"".data ++ oldSrc ++ "\"".data) = true ∧
        ((s.drop 4).takeWhile (fun c => !(c == '>'))).length < (s.drop 4).length
    · rw [if_pos h2] at h
      injection h with h'
      injection h' with ho hr
      subst hr
      have hd4 : (s.drop 4).length = s.length - 4 := List.length_drop _ _
      have hdr := List.length_drop
        (((s.drop 4).takeWhile (fun c => !(c == '>'))).length + 1) (s.drop 4)
      omega
    · rw [if_neg h2] at h
      exact Option.noConfusion h
  · rw [if_neg h1] at h
    exact Option.noConfusion h

/-- No pair in the copied component of the classification has a
HEIC/HEIF-decoded extension: such srcs are diverted to the unsupported list
before the copy probe runs. -/
theorem classifySrcs_copied_not_heic (find_ : List Char → Option (List Char)) :
    ∀ (srcs : List (List Char)) (pr : List Char × List Char),
      pr ∈ (classifySrcs find_ srcs).1 →
      ¬ pyLowerL (stemSuffix (lastComponent (pyUnquoteL pr.1))).2 = ".heic".data ∧
      ¬ pyLowerL (stemSuffix (lastComponent (pyUnquoteL pr.1))).2 = ".heif".data := by
  intro srcs
  induction srcs with
  | nil =>
    intro pr h
    simp only [classifySrcs] at h
    exact absurd h (List.not_mem_nil _)
  | cons src rest ih =>
    intro pr h
    unfold classifySrcs at h
    by_cases he : src.isEmpty = true
    · rw [if_pos he] at h
      exact ih pr h
    · rw [if_neg he] at h
      by_cases hh : pyLowerL (stemSuffix (lastComponent (pyUnquoteL src))).2 = ".heic".data ∨
          pyLowerL (stemSuffix (lastComponent (pyUnquoteL src))).2 = ".heif".data
      · rw [if_pos hh] at h
        exact ih pr h
      · rw [if_neg hh] at h
        cases hf : find_ (pyUnquoteL src) with
        | none =>
          rw [hf] at h
          exact ih pr h
        | some fn =>
          rw [hf] at h
          dsimp only at h
          rcases List.mem_cons.mp h with hpr | hmem
          · subst hpr
            exact ⟨fun hc => hh (Or.inl hc), fun hc => hh (Or.inr hc)⟩
          · exact ih pr hmem

set_option maxRecDepth 8000 in
set_option maxHeartbeats 2000000 in
/-- C8 counterexample: `<img alt=">" src="a.heic">` contains a `>` inside an
attribute value, so `<img[^>]*src="..."[^>]*>` cannot match it; the src is
classified unsupported, yet the returned content is unchanged and still
contains the `<img>` tag pointing at the HEIC file — no comment placeholder
is inserted. -/
theorem c8_counterexample :
    copy_and_fix_images (fun _ => none) true "<img alt=\">\" src=\"a.heic\">" =
      "<img alt=\">\" src=\"a.heic\">" ∧
    containsSub (copy_and_fix_images (fun _ => none) true
        "<img alt=\">\" src=\"a.heic\">").data "src=\"a.heic\"".data = true ∧
    unsupportedImages (fun _ => none) "<img alt=\">\" src=\"a.heic\">".data =
      [("a.heic".data, "a.heic".data)] := by
  exact ⟨by decide, by decide, by decide⟩

/-- C8 amended: (1) `copy_and_fix_images` never copies a src whose
URL-decoded, lowercased extension is `.heic`/`.heif` — such references are
diverted to the unsupported list before the copy probe; (2) a well-formed
`<img ...>` tag whose attribute run contains no `>` and carries
`src="OLD"` is, at its leftmost occurrence, replaced wholesale by the
UNSUPPORTED-IMAGE comment; (3) when the figure-wrapper pattern matches
nowhere, that rewrite stage leaves the content unchanged (so tags whose
attribute values contain `>`, which the img regex cannot match, survive). -/
theorem c8_amended (find_ : List Char → Option (List Char)) (content : List Char)
    (oldSrc fn p attrs q s : List Char)
    (h1 : ∀ i, i < p.length →
      imgTagTry oldSrc (imgCommentOf fn)
        (List.drop i (p ++ ("<img".data ++ (attrs ++ '>' :: q)))) = none)
    (h2 : attrs.all (fun c => !(c == '>')) = true)
    (h3 : containsSub attrs ("src=\"".data ++ oldSrc ++ "\"".data) = true)
    (h4 : ∀ i, i < s.length → figureTry fn (imgCommentOf fn) (s.drop i) = none) :
    (∀ pr ∈ copiedImages find_ content,
      ¬ pyLowerL (stemSuffix (lastComponent (pyUnquoteL pr.1))).2 = ".heic".data ∧
      ¬ pyLowerL (stemSuffix (lastComponent (pyUnquoteL pr.1))).2 = ".heif".data) ∧
    runScan (imgTagTry oldSrc (imgCommentOf fn))
        (p ++ ("<img".data ++ (attrs ++ '>' :: q))) =
      p ++ (imgCommentOf fn ++ runScan (imgTagTry oldSrc (imgCommentOf fn)) q) ∧
    runScan (figureTry fn (imgCommentOf fn)) s = s := by
  refine ⟨?_, ?_, ?_⟩
  · intro pr hpr
    exact classifySrcs_copied_not_heic find_ (imgMatches content) pr hpr
  · have hassoc : ("<img".data ++ (attrs ++ ['>'])) ++ q =
        "<img".data ++ (attrs ++ '>' :: q) := by
      simp [List.append_assoc]
    have hm : imgTagTry oldSrc (imgCommentOf fn) (("<img".data ++ (attrs ++ ['>'])) ++ q) =
        some (imgCommentOf fn, q) := by
      rw [hassoc]
      exact imgTagTry_eq oldSrc (imgCommentOf fn) attrs q h2 h3
    have hne : ("<img".data ++ (attrs ++ ['>'])) ≠ [] := by
      intro h
      rw [show ("<img".data : List Char) = '<' :: "img".data from rfl,
        List.cons_append] at h
      exact List.noConfusion h
    have hp : ∀ i, i < p.length →
        imgTagTry oldSrc (imgCommentOf fn)
          (List.drop i (p ++ (("<img".data ++ (attrs ++ ['>'])) ++ q))) = none := by
      intro i hi
      rw [hassoc]
      exact h1 i hi
    have hmain := runScan_match (imgTagTry oldSrc (imgCommentOf fn))
      (imgTagTry_shrink oldSrc (imgCommentOf fn)) p ("<img".data ++ (attrs ++ ['>']))
      (imgCommentOf fn) q hm hne hp
    rw [hassoc] at hmain
    exact hmain
  · unfold runScan
    exact scanRw_none _ _ s h4

set_option maxRecDepth 8000 in
/-- Witness for C8 amended on a concrete src, tag and figure-free tail. -/
theorem c8_witness :
    (∀ pr ∈ copiedImages (fun _ => none) "<img src=\"ok.png\">".data,
      ¬ pyLowerL (stemSuffix (lastComponent (pyUnquoteL pr.1))).2 = ".heic".data ∧
      ¬ pyLowerL (stemSuffix (lastComponent (pyUnquoteL pr.1))).2 = ".heif".data) ∧
    runScan (imgTagTry "b.heic".data (imgCommentOf "b.heic".data))
        ("u".data ++ ("<img".data ++ (" src=\"b.heic\"".data ++ '>' :: "v".data))) =
      "u".data ++ (imgCommentOf "b.heic".data ++
        runScan (imgTagTry "b.heic".data (imgCommentOf "b.heic".data)) "v".data) ∧
    runScan (figureTry "b.heic".data (imgCommentOf "b.heic".data)) "w".data = "w".data :=
  c8_amended (fun _ => none) "<img src=\"ok.png\">".data "b.heic".data "b.heic".data
    "u".data " src=\"b.heic\"".data "v".data "w".data
    (by decide) (by decide) (by decide) (by decide)

end NotionTools
